import Mathlib

/-!
Shallow embedding of the graph-traversal core of parameter_updater.py.

The program walks a Speckle object graph: nodes (specklepy Base objects)
carry an optional id, and dynamically named fields whose values are
scalars, nested Base objects, or lists.  Sharing and cycles are real in
the source (Python object references), so the embedding uses an explicit
heap: addresses, node records, and reference values.  A field whose
fetch raises (a throwing property) is modelled by the value vraise.
-/

namespace SpeckleWalk

abbrev Addr := Nat

/-- Values stored in a node's fields: null, strings, references to
heap-allocated Base objects, lists, and a marker for members whose
fetch raises an exception. -/
inductive Value : Type where
  | vnull : Value
  | vstr : String → Value
  | vref : Addr → Value
  | vlist : List Value → Value
  | vraise : Value

/-- One Base object: its optional id (get_safe_attribute(obj, 'id'),
with a present-but-None id collapsing to none) and its named fields. -/
structure NodeRec : Type where
  id : Option String
  fields : List (String × Value)

abbrev Heap := List (Addr × NodeRec)

/-- Association-list lookup of a heap address (first match). -/
def lookupAddr : Heap → Addr → Option NodeRec
  | [], _ => none
  | (b, n) :: t, a => if b = a then some n else lookupAddr t a

/-- Replace the node stored at an address (first match); no-op if absent. -/
def updateAddr : Heap → Addr → NodeRec → Heap
  | [], _, _ => []
  | (b, m) :: t, a, n => if b = a then (b, n) :: t else (b, m) :: updateAddr t a n

/-- First value bound to a field name in an association list. -/
def getFieldList : List (String × Value) → String → Option Value
  | [], _ => none
  | (f, w) :: t, key => if f = key then some w else getFieldList t key

/-- Overwrite the first binding of a field name (append if absent;
the walker only calls it on present fields). -/
def setFieldList : List (String × Value) → String → Value → List (String × Value)
  | [], key, v => [(key, v)]
  | (f, w) :: t, key, v => if f = key then (f, v) :: t else (f, w) :: setFieldList t key v

/-- In-place field write on a node, as obj[target_key] = target_value. -/
def setField (n : NodeRec) (key : String) (v : Value) : NodeRec :=
  ⟨n.id, setFieldList n.fields key v⟩

/-- hasattr(obj, key): true iff the field is present and its fetch does
not raise (Python's hasattr swallows getter exceptions as False). -/
def hasattrKey (n : NodeRec) (key : String) : Bool :=
  match getFieldList n.fields key with
  | some Value.vraise => false
  | some _ => true
  | none => false

/-- getattr(obj, name) with no default: raises when the member is absent
or its getter throws. -/
def getattrE (n : NodeRec) (key : String) : Except Unit Value :=
  match getFieldList n.fields key with
  | some Value.vraise => Except.error ()
  | some v => Except.ok v
  | none => Except.error ()

/-- getattr(obj, attr, None) wrapped in try/except, from
get_safe_attribute (source lines 93-107): total, never raises. -/
def get_safe_attribute (n : NodeRec) (key : String) : Value :=
  match getattrE n key with
  | Except.error _ => Value.vnull
  | Except.ok v => v

/-- The same try/except body in the exception monad: the catch turns
every error into a normal Value.vnull return. -/
def getSafeAttributeE (n : NodeRec) (key : String) : Except Unit Value :=
  match getattrE n key with
  | Except.error _ => Except.ok Value.vnull
  | Except.ok v => Except.ok v

/-- Python truthiness of the id slot: None and the empty string are
falsy, a non-empty string is truthy. -/
def truthyId : Option String → Bool
  | none => false
  | some s => !s.isEmpty

/-- Source line 169: obj_id and obj_id in processed. -/
def idInProcessed : Option String → List String → Bool
  | none, _ => false
  | some s, l => !s.isEmpty && l.contains s

/-- Traversal state: the (shared, in-place mutated) heap, the visited
set processed, and the two global ledgers changed_ids and same_ids. -/
structure St : Type where
  heap : Heap
  processed : List String
  changed_ids : List (Option String)
  same_ids : List (Option String)

/-- Source lines 169-196 on a single node that passed the depth, type
and visited-set guards: mark the id visited (if truthy), append to
same_ids when the id differs from SpeckleId, and rewrite target_key
when present, recording the id in changed_ids. -/
def selfStep (SpeckleId : String) (target_key : String) (target_value : Value)
    (a : Addr) (node : NodeRec) (st : St) : St × Bool :=
  let st1 := if truthyId node.id then
      { st with processed := node.id.getD "" :: st.processed } else st
  let st2 := if node.id ≠ some SpeckleId then
      { st1 with same_ids := st1.same_ids ++ [node.id] } else st1
  if hasattrKey node target_key then
    ({ st2 with heap := updateAddr st2.heap a (setField node target_key target_value),
                changed_ids := st2.changed_ids ++ [node.id] }, true)
  else (st2, false)

/-- Source lines 214-220: iterate a list member in order, recursing on
Base elements (references) and skipping everything else.  recO is the
recursive call at depth + 1. -/
def processListA (recO : Value → St → St × Bool) : List Value → St → St × Bool
  | [], st => (st, false)
  | item :: rest, st =>
    match item with
    | Value.vref b =>
      let p := recO (Value.vref b) st
      let q := processListA recO rest p.1
      (q.1, p.2 || q.2)
    | _ => processListA recO rest st

/-- Source lines 203-224: iterate member names; fetch each member from
the current state of the node (errors are caught and the loop continues
with the next member); recurse on Base members and on Base elements of
list members. -/
def processMembersA (recO : Value → St → St × Bool) (a : Addr) :
    List String → St → Bool → St × Bool
  | [], st, acc => (st, acc)
  | name :: rest, st, acc =>
    match lookupAddr st.heap a with
    | none => processMembersA recO a rest st acc
    | some node =>
      match getattrE node name with
      | Except.error _ => processMembersA recO a rest st acc
      | Except.ok value =>
        match value with
        | Value.vref b =>
          let p := recO (Value.vref b) st
          processMembersA recO a rest p.1 (acc || p.2)
        | Value.vlist items =>
          let p := processListA recO items st
          processMembersA recO a rest p.1 (acc || p.2)
        | _ => processMembersA recO a rest st acc

/-- process_object (source lines 133-229).  fuel is the remaining depth
budget: the top-level call uses fuel = max_depth + 1, children get one
less, so fuel = max_depth + 1 - depth at every reachable call and the
fuel-0 branch coincides with the depth guard (both report no change).
Guards in source order: depth ceiling, isinstance(obj, Base) (only a
vref that resolves in the heap is a Base), visited-set check; then the
self step and the member loop at depth + 1. -/
def process_object (SpeckleId : String) (target_key : String) (target_value : Value)
    (max_depth : Nat) : Nat → Nat → Value → St → St × Bool
  | 0, _, _, st => (st, false)
  | fuel + 1, depth, v, st =>
    if max_depth < depth then (st, false)
    else
      match v with
      | Value.vref a =>
        match lookupAddr st.heap a with
        | none => (st, false)
        | some node =>
          if idInProcessed node.id st.processed then (st, false)
          else
            let p := selfStep SpeckleId target_key target_value a node st
            let names := match lookupAddr p.1.heap a with
              | some n2 => n2.fields.map Prod.fst
              | none => []
            processMembersA
              (process_object SpeckleId target_key target_value max_depth fuel (depth + 1))
              a names p.1 p.2
      | _ => (st, false)

/-- One top-level traversal: fresh visited set and ledgers, depth 0. -/
def walk (SpeckleId : String) (target_key : String) (target_value : Value)
    (max_depth : Nat) (root : Value) (h : Heap) : St × Bool :=
  process_object SpeckleId target_key target_value max_depth
    (max_depth + 1) 0 root ⟨h, [], [], []⟩

/-- Relation between the traversal state at entry and at exit of any
call of the walker: the visited set grows, the ledgers are append-only,
every heap change writes target_value into target_key of a node that
had the field (and whose truthy id is then in the visited set), each
truthy id is counted at most once more in either ledger, a newly
visited id is recorded exactly once (and mutated exactly when its node
carries the field), every new changed_ids entry comes from a node with
the field, and the SpeckleId token is never recorded in same_ids. -/
structure Invar (SpeckleId target_key : String) (target_value : Value)
    (st st' : St) : Prop where
  procMono : ∀ s, s ∈ st.processed → s ∈ st'.processed
  chApp : ∃ l, st'.changed_ids = st.changed_ids ++ l
  smApp : ∃ l, st'.same_ids = st.same_ids ++ l
  frame : ∀ a, lookupAddr st'.heap a = lookupAddr st.heap a ∨
    ∃ n, lookupAddr st.heap a = some n ∧ hasattrKey n target_key = true ∧
      lookupAddr st'.heap a = some (setField n target_key target_value) ∧
      (n.id = none ∨ ∃ s, n.id = some s ∧ (s.isEmpty = true ∨ s ∈ st'.processed))
  chCount : ∀ s : String, s.isEmpty = false →
    st'.changed_ids.count (some s) ≤
      st.changed_ids.count (some s) + (if s ∈ st.processed then 0 else 1) ∧
    (st'.changed_ids.count (some s) ≠ st.changed_ids.count (some s) → s ∈ st'.processed)
  smCount : ∀ s : String, s.isEmpty = false →
    st'.same_ids.count (some s) ≤
      st.same_ids.count (some s) + (if s ∈ st.processed then 0 else 1) ∧
    (st'.same_ids.count (some s) ≠ st.same_ids.count (some s) → s ∈ st'.processed)
  newProc : ∀ s : String, s.isEmpty = false → s ∈ st'.processed → s ∉ st.processed →
    ∃ a n, lookupAddr st.heap a = some n ∧ n.id = some s ∧
      st'.changed_ids.count (some s) =
        st.changed_ids.count (some s) + (if hasattrKey n target_key then 1 else 0) ∧
      st'.same_ids.count (some s) =
        st.same_ids.count (some s) + (if s = SpeckleId then 0 else 1) ∧
      (hasattrKey n target_key = true →
        lookupAddr st'.heap a = some (setField n target_key target_value))
  chSrc : ∀ s : String, (some s) ∈ st'.changed_ids → (some s) ∈ st.changed_ids ∨
    ∃ a n, lookupAddr st.heap a = some n ∧ n.id = some s ∧ hasattrKey n target_key = true
  tokCount : st'.same_ids.count (some SpeckleId) = st.same_ids.count (some SpeckleId)
  procNew : ∀ s, s ∈ st'.processed → s ∈ st.processed ∨ s.isEmpty = false

/-- Addresses of the Base objects a member value leads to: a direct
reference, or the references among the elements of a directly held
list (elements of nested lists are skipped by the walker). -/
def valSuccs : Value → List Addr
  | Value.vref b => [b]
  | Value.vlist xs => xs.filterMap (fun x => match x with
      | Value.vref b => some b
      | _ => none)
  | _ => []

/-- All child addresses of a node, in member order. -/
def succsOfNode (n : NodeRec) : List Addr :=
  (n.fields.map (fun p => valSuccs p.2)).flatten

/-- One traversal edge of the heap graph. -/
def edgeTo (h : Heap) (a b : Addr) : Prop :=
  ∃ n, lookupAddr h a = some n ∧ b ∈ succsOfNode n

/-- Reachability along traversal edges. -/
def reachesFrom (h : Heap) (a b : Addr) : Prop :=
  Relation.ReflTransGen (edgeTo h) a b

/-- A path of the heap graph that starts at the root. -/
def rootedPath (h : Heap) (root : Addr) (l : List Addr) : Prop :=
  l.head? = some root ∧ List.Chain' (edgeTo h) l

/-- The address b names a node (in the reference heap) whose id is in
the visited set of the state. -/
def idProcessedAt (h0 : Heap) (st : St) (b : Addr) : Prop :=
  ∃ n s, lookupAddr h0 b = some n ∧ n.id = some s ∧ s ∈ st.processed

/-- Between two states of one traversal: every node newly entered into
the visited set has all of its children's ids in the final visited
set. -/
def coveredExt (h0 : Heap) (st st' : St) : Prop :=
  ∀ c n s, lookupAddr h0 c = some n → n.id = some s → s ∈ st'.processed →
    s ∉ st.processed → ∀ b, b ∈ succsOfNode n → idProcessedAt h0 st' b

/-- True for values that are neither references nor lists, so contribute
no traversal edges. -/
def notRefList : Value → Bool
  | Value.vref _ => false
  | Value.vlist _ => false
  | _ => true

/-- Wellformedness of a heap for the visited-exactly-once property:
every node has a truthy id, ids name nodes unambiguously, references
resolve, the target field holds no references or lists (it is a
parameter slot, so rewriting it does not change the graph), and member
names are duplicate-free. -/
structure heapWF (target_key : String) (h : Heap) : Prop where
  idsTruthy : ∀ a n, lookupAddr h a = some n → ∃ s, n.id = some s ∧ s.isEmpty = false
  idsInj : ∀ a a' n n' s, lookupAddr h a = some n → lookupAddr h a' = some n' →
    n.id = some s → n'.id = some s → a = a'
  noDangling : ∀ a n, lookupAddr h a = some n → ∀ b, b ∈ succsOfNode n →
    ∃ m, lookupAddr h b = some m
  targetScalar : ∀ a n, lookupAddr h a = some n → ∀ v,
    getFieldList n.fields target_key = some v → notRefList v = true
  namesNodup : ∀ a n, lookupAddr h a = some n → (n.fields.map Prod.fst).Nodup

/-- Pointwise relation between a heap and a version of it in which some
nodes carrying the target field have had it rewritten. -/
def heapRel (target_key : String) (target_value : Value) (h h' : Heap) : Prop :=
  ∀ a, lookupAddr h' a = lookupAddr h a ∨
    ∃ n, lookupAddr h a = some n ∧ hasattrKey n target_key = true ∧
      lookupAddr h' a = some (setField n target_key target_value)

/-- Relation between the states of two aligned runs: identical visited
set and ledgers, and heaps that differ only by target-field rewrites
already applied on the second side. -/
def stRel (target_key : String) (target_value : Value) (st1 st2 : St) : Prop :=
  st2.processed = st1.processed ∧ st2.changed_ids = st1.changed_ids ∧
  st2.same_ids = st1.same_ids ∧ heapRel target_key target_value st1.heap st2.heap

/-- Diamond graph: a root with a truthy id holding two members that both
reference the same id-less node carrying the target field "w". -/
def cexHeapDiamond : Heap :=
  [(0, ⟨some "r", [("c1", Value.vref 1), ("c2", Value.vref 1)]⟩),
   (1, ⟨none, [("w", Value.vstr "5")]⟩)]

/-- Like cexHeapDiamond but with three paths into the id-less node. -/
def cexHeapTriple : Heap :=
  [(0, ⟨some "r", [("c1", Value.vref 1), ("c2", Value.vref 1), ("c3", Value.vref 1)]⟩),
   (1, ⟨none, [("w", Value.vstr "5")]⟩)]

/-- Mixed graph: the root holds an id-less wrapper whose first member
is the wrapper itself and whose second member is an id-carrying node x
with child c.  The wrapper re-expands on every arrival, so the deep
first exploration reaches x only at the depth ceiling, c is pruned,
and every later shallower arrival at x hits the visited-set guard. -/
def cexHeapWrapper : Heap :=
  [(0, ⟨some "R", [("a", Value.vref 1)]⟩),
   (1, ⟨none, [("self", Value.vref 1), ("x", Value.vref 2)]⟩),
   (2, ⟨some "x", [("c", Value.vref 3)]⟩),
   (3, ⟨some "c", []⟩)]

/-- Graph whose target field itself holds the only reference to a
child: the pre-order rewrite severs the edge before the member loop
enumerates it, so the child is never visited. -/
def cexHeapTargetRef : Heap :=
  [(0, ⟨some "R", [("w", Value.vref 1)]⟩),
   (1, ⟨some "q", []⟩)]

/-- A node whose field "x" is present and holds the null value. -/
def exNodeNull : NodeRec := ⟨some "p", [("x", Value.vnull)]⟩

/-- A node with no field "x" at all. -/
def exNodeBare : NodeRec := ⟨some "q", []⟩

/-- One node with the target field, no children. -/
def exHeapSingle : Heap := [(0, ⟨some "r", [("w", Value.vstr "5")]⟩)]

/-- One node with no fields. -/
def exHeapPlain : Heap := [(0, ⟨some "r", []⟩)]

/-- A self-referential node: its member me is the node itself. -/
def exHeapSelfLoop : Heap :=
  [(0, ⟨some "r", [("me", Value.vref 0), ("w", Value.vstr "5")]⟩)]

/-- A node whose member bad raises on fetch, followed by a normal field. -/
def exHeapRaise : Heap :=
  [(0, ⟨some "r", [("bad", Value.vraise), ("w", Value.vstr "5")]⟩)]

/-! Basic lemmas on the heap and field primitives. -/

theorem lookupAddr_updateAddr_self (h : Heap) (a : Addr) (n m : NodeRec)
    (hm : lookupAddr h a = some m) : lookupAddr (updateAddr h a n) a = some n := by
  induction h with
  | nil => simp [lookupAddr] at hm
  | cons p t ih =>
    obtain ⟨b, q⟩ := p
    by_cases hb : b = a
    · subst hb
      simp [lookupAddr, updateAddr]
    · simp only [lookupAddr, updateAddr, if_neg hb] at hm ⊢
      exact ih hm

theorem lookupAddr_updateAddr_ne (h : Heap) (a a' : Addr) (n : NodeRec) (hne : a' ≠ a) :
    lookupAddr (updateAddr h a n) a' = lookupAddr h a' := by
  induction h with
  | nil => simp [updateAddr, lookupAddr]
  | cons p t ih =>
    obtain ⟨b, q⟩ := p
    by_cases hb : b = a
    · subst hb
      have hba : ¬ b = a' := fun hh => hne hh.symm
      simp [lookupAddr, updateAddr, if_neg hba]
    · simp only [updateAddr, if_neg hb, lookupAddr]
      by_cases hb' : b = a'
      · simp [if_pos hb']
      · simp only [if_neg hb']
        exact ih

theorem getFieldList_setFieldList_self (l : List (String × Value)) (key : String) (v : Value) :
    getFieldList (setFieldList l key v) key = some v := by
  induction l with
  | nil => simp [setFieldList, getFieldList]
  | cons p t ih =>
    obtain ⟨f, w⟩ := p
    by_cases hf : f = key
    · subst hf
      simp [setFieldList, getFieldList]
    · simp only [setFieldList, if_neg hf, getFieldList]
      exact ih

theorem getFieldList_setFieldList_ne (l : List (String × Value)) (key f : String) (v : Value)
    (hne : f ≠ key) : getFieldList (setFieldList l key v) f = getFieldList l f := by
  induction l with
  | nil =>
    have hkf : ¬ key = f := fun hh => hne hh.symm
    simp [setFieldList, getFieldList, if_neg hkf]
  | cons p t ih =>
    obtain ⟨g, w⟩ := p
    by_cases hg : g = key
    · subst hg
      have : ¬ g = f := fun hh => hne hh.symm
      simp [setFieldList, getFieldList, if_neg this]
    · simp only [setFieldList, if_neg hg, getFieldList]
      by_cases hg' : g = f
      · simp [if_pos hg']
      · simp only [if_neg hg']
        exact ih

theorem setFieldList_idem (l : List (String × Value)) (key : String) (v : Value) :
    setFieldList (setFieldList l key v) key v = setFieldList l key v := by
  induction l with
  | nil => simp [setFieldList]
  | cons p t ih =>
    obtain ⟨f, w⟩ := p
    by_cases hf : f = key
    · subst hf
      simp [setFieldList]
    · simp only [setFieldList, if_neg hf]
      rw [ih]

theorem map_fst_setFieldList (l : List (String × Value)) (key : String) (v w : Value)
    (hw : getFieldList l key = some w) :
    (setFieldList l key v).map Prod.fst = l.map Prod.fst := by
  induction l with
  | nil => simp [getFieldList] at hw
  | cons p t ih =>
    obtain ⟨f, u⟩ := p
    by_cases hf : f = key
    · subst hf
      simp [setFieldList]
    · simp only [getFieldList, if_neg hf] at hw
      simp only [setFieldList, if_neg hf, List.map_cons]
      rw [ih hw]

theorem setField_id (n : NodeRec) (key : String) (v : Value) :
    (setField n key v).id = n.id := rfl

theorem setField_idem (n : NodeRec) (key : String) (v : Value) :
    setField (setField n key v) key v = setField n key v := by
  simp [setField, setFieldList_idem]

theorem hasattrKey_setField_self (n : NodeRec) (key : String) (v : Value)
    (hv : v ≠ Value.vraise) : hasattrKey (setField n key v) key = true := by
  unfold hasattrKey
  rw [show (setField n key v).fields = setFieldList n.fields key v from rfl,
    getFieldList_setFieldList_self]
  cases v with
  | vraise => exact absurd rfl hv
  | vnull => rfl
  | vstr s => rfl
  | vref a => rfl
  | vlist xs => rfl

theorem hasattrKey_setField_ne (n : NodeRec) (key f : String) (v : Value)
    (hne : f ≠ key) : hasattrKey (setField n key v) f = hasattrKey n f := by
  unfold hasattrKey setField
  simp only [getFieldList_setFieldList_ne n.fields key f v hne]

theorem getFieldList_mem (l : List (String × Value)) (f : String) (v : Value)
    (hv : getFieldList l f = some v) : (f, v) ∈ l := by
  induction l with
  | nil => simp [getFieldList] at hv
  | cons p t ih =>
    obtain ⟨g, w⟩ := p
    by_cases hg : g = f
    · subst hg
      simp only [getFieldList, if_pos rfl] at hv
      cases hv
      exact List.mem_cons_self _ _
    · simp only [getFieldList, if_neg hg] at hv
      exact List.mem_cons_of_mem _ (ih hv)

theorem contains_true_iff (l : List String) (s : String) : l.contains s = true ↔ s ∈ l :=
  List.elem_iff

theorem idInProcessed_false (oid : Option String) (l : List String)
    (h : idInProcessed oid l = false) :
    oid = none ∨ ∃ s, oid = some s ∧ (s.isEmpty = true ∨ s ∉ l) := by
  cases oid with
  | none => exact Or.inl rfl
  | some s =>
    refine Or.inr ⟨s, rfl, ?_⟩
    simp only [idInProcessed, Bool.and_eq_false_iff] at h
    cases h with
    | inl h1 =>
      left
      cases he : s.isEmpty with
      | true => rfl
      | false => simp [he] at h1
    | inr h2 =>
      right
      intro hs
      rw [(contains_true_iff l s).mpr hs] at h2
      cases h2

theorem idInProcessed_true (s : String) (l : List String)
    (he : s.isEmpty = false) (hs : s ∈ l) : idInProcessed (some s) l = true := by
  simp only [idInProcessed, he, Bool.not_false, Bool.true_and]
  exact (contains_true_iff l s).mpr hs

theorem count_le_append (l t : List (Option String)) (x : Option String) :
    l.count x ≤ (l ++ t).count x := by
  rw [List.count_append]
  exact Nat.le_add_right _ _

theorem Invar.selfRel (SpeckleId target_key : String) (target_value : Value) (st : St) :
    Invar SpeckleId target_key target_value st st := by
  constructor
  · exact fun s hs => hs
  · exact ⟨[], (List.append_nil _).symm⟩
  · exact ⟨[], (List.append_nil _).symm⟩
  · exact fun a => Or.inl rfl
  · intro s _
    exact ⟨Nat.le_add_right _ _, fun h => absurd rfl h⟩
  · intro s _
    exact ⟨Nat.le_add_right _ _, fun h => absurd rfl h⟩
  · intro s _ hin hout
    exact absurd hin hout
  · exact fun s h => Or.inl h
  · exact rfl
  · exact fun s h => Or.inl h

theorem Invar.trans {SpeckleId target_key : String} {target_value : Value}
    {st st' st'' : St}
    (h1 : Invar SpeckleId target_key target_value st st')
    (h2 : Invar SpeckleId target_key target_value st' st'') :
    Invar SpeckleId target_key target_value st st'' := by
  have chGe : ∀ s : String,
      st'.changed_ids.count (some s) ≤ st''.changed_ids.count (some s) := by
    intro s
    obtain ⟨l2, hl2⟩ := h2.chApp
    rw [hl2]
    exact count_le_append _ _ _
  constructor
  case procMono => exact fun s hs => h2.procMono s (h1.procMono s hs)
  case chApp =>
    obtain ⟨l1, e1⟩ := h1.chApp
    obtain ⟨l2, e2⟩ := h2.chApp
    exact ⟨l1 ++ l2, by rw [e2, e1, List.append_assoc]⟩
  case smApp =>
    obtain ⟨l1, e1⟩ := h1.smApp
    obtain ⟨l2, e2⟩ := h2.smApp
    exact ⟨l1 ++ l2, by rw [e2, e1, List.append_assoc]⟩
  case frame =>
    intro a
    rcases h2.frame a with heq2 | ⟨m, hm, hkm, hsetm, hannm⟩
    · rcases h1.frame a with heq1 | ⟨n, hn, hkn, hsetn, hannn⟩
      · exact Or.inl (heq2.trans heq1)
      · refine Or.inr ⟨n, hn, hkn, heq2.trans hsetn, ?_⟩
        rcases hannn with h | ⟨s, hs, he⟩
        · exact Or.inl h
        · exact Or.inr ⟨s, hs, he.imp id (h2.procMono s)⟩
    · rcases h1.frame a with heq1 | ⟨n, hn, hkn, hsetn, hannn⟩
      · refine Or.inr ⟨m, heq1 ▸ hm, hkm, hsetm, hannm⟩
      · have hmn : m = setField n target_key target_value := by
          rw [hsetn] at hm
          exact (Option.some.inj hm).symm
        refine Or.inr ⟨n, hn, hkn, ?_, ?_⟩
        · rw [hsetm, hmn, setField_idem]
        · rcases hannn with h | ⟨s, hs, he⟩
          · exact Or.inl h
          · exact Or.inr ⟨s, hs, he.imp id (h2.procMono s)⟩
  case chCount =>
    intro s hse
    obtain ⟨b1, i1⟩ := h1.chCount s hse
    obtain ⟨b2, i2⟩ := h2.chCount s hse
    constructor
    · by_cases hp : s ∈ st.processed
      · have hp' : s ∈ st'.processed := h1.procMono s hp
        simp only [if_pos hp] at b1 ⊢
        simp only [if_pos hp'] at b2
        omega
      · by_cases hp' : s ∈ st'.processed
        · simp only [if_neg hp] at b1 ⊢
          simp only [if_pos hp'] at b2
          omega
        · have heq : st'.changed_ids.count (some s) = st.changed_ids.count (some s) := by
            by_contra hne
            exact hp' (i1 hne)
          simp only [if_neg hp] at b1 ⊢
          simp only [if_neg hp'] at b2
          omega
    · intro hne
      by_cases he2 : st''.changed_ids.count (some s) = st'.changed_ids.count (some s)
      · have : st'.changed_ids.count (some s) ≠ st.changed_ids.count (some s) := by
          omega
        exact h2.procMono s (i1 this)
      · exact i2 he2
  case smCount =>
    intro s hse
    obtain ⟨b1, i1⟩ := h1.smCount s hse
    obtain ⟨b2, i2⟩ := h2.smCount s hse
    constructor
    · by_cases hp : s ∈ st.processed
      · have hp' : s ∈ st'.processed := h1.procMono s hp
        simp only [if_pos hp] at b1 ⊢
        simp only [if_pos hp'] at b2
        omega
      · by_cases hp' : s ∈ st'.processed
        · simp only [if_neg hp] at b1 ⊢
          simp only [if_pos hp'] at b2
          omega
        · have heq : st'.same_ids.count (some s) = st.same_ids.count (some s) := by
            by_contra hne
            exact hp' (i1 hne)
          simp only [if_neg hp] at b1 ⊢
          simp only [if_neg hp'] at b2
          omega
    · intro hne
      by_cases he2 : st''.same_ids.count (some s) = st'.same_ids.count (some s)
      · have : st'.same_ids.count (some s) ≠ st.same_ids.count (some s) := by
          omega
        exact h2.procMono s (i1 this)
      · exact i2 he2
  case newProc =>
    intro s hse hs'' hs
    by_cases hp' : s ∈ st'.processed
    · obtain ⟨a, n, hn, hid, hch, hsm, hheap⟩ := h1.newProc s hse hp' hs
      have hchEq : st''.changed_ids.count (some s) = st'.changed_ids.count (some s) := by
        have hle := (h2.chCount s hse).1
        simp only [if_pos hp'] at hle
        have hge := chGe s
        omega
      have hsmEq : st''.same_ids.count (some s) = st'.same_ids.count (some s) := by
        have hle := (h2.smCount s hse).1
        simp only [if_pos hp'] at hle
        obtain ⟨l2, hl2⟩ := h2.smApp
        have hge : st'.same_ids.count (some s) ≤ st''.same_ids.count (some s) := by
          rw [hl2]
          exact count_le_append _ _ _
        omega
      refine ⟨a, n, hn, hid, by rw [hchEq, hch], by rw [hsmEq, hsm], ?_⟩
      intro hk
      have hset1 := hheap hk
      rcases h2.frame a with heq2 | ⟨m, hm, hkm, hsetm, _⟩
      · rw [heq2, hset1]
      · have hmn : m = setField n target_key target_value := by
          rw [hset1] at hm
          exact (Option.some.inj hm).symm
        rw [hsetm, hmn, setField_idem]
    · obtain ⟨a, n, hn', hid, hch2, hsm2, hheap2⟩ := h2.newProc s hse hs'' hp'
      have hchEq : st'.changed_ids.count (some s) = st.changed_ids.count (some s) := by
        by_contra hne
        exact hp' ((h1.chCount s hse).2 hne)
      have hsmEq : st'.same_ids.count (some s) = st.same_ids.count (some s) := by
        by_contra hne
        exact hp' ((h1.smCount s hse).2 hne)
      rcases h1.frame a with heq1 | ⟨m, hm, hkm, hsetm, hannm⟩
      · refine ⟨a, n, heq1 ▸ hn', hid, by rw [hch2, hchEq], by rw [hsm2, hsmEq], hheap2⟩
      · exfalso
        have hnm : n = setField m target_key target_value := by
          rw [hsetm] at hn'
          exact (Option.some.inj hn').symm
        have hmid : m.id = some s := by
          have : n.id = m.id := by rw [hnm]; rfl
          rw [← this, hid]
        rcases hannm with hnone | ⟨s', hs', he'⟩
        · rw [hmid] at hnone
          cases hnone
        · rw [hmid] at hs'
          cases Option.some.inj hs'
          rcases he' with he | hmem
          · rw [he] at hse
            cases hse
          · exact hp' hmem
  case chSrc =>
    intro s hmem
    rcases h2.chSrc s hmem with hin' | ⟨a, n, hn, hid, hk2⟩
    · exact h1.chSrc s hin'
    · rcases h1.frame a with heq1 | ⟨m, hm, hkm, hsetm, _⟩
      · exact Or.inr ⟨a, n, heq1 ▸ hn, hid, hk2⟩
      · have hnm : n = setField m target_key target_value := by
          rw [hsetm] at hn
          exact (Option.some.inj hn).symm
        have hmid : m.id = some s := by
          have : n.id = m.id := by rw [hnm]; rfl
          rw [← this, hid]
        exact Or.inr ⟨a, m, hm, hmid, hkm⟩
  case tokCount => rw [h2.tokCount, h1.tokCount]
  case procNew =>
    intro s hs
    rcases h2.procNew s hs with h | h
    · exact h1.procNew s h
    · exact Or.inr h

theorem count_append_single (l : List (Option String)) (x y : Option String) :
    (l ++ [y]).count x = l.count x + (if x = y then 1 else 0) := by
  rw [List.count_append]
  by_cases h : x = y
  · subst h
    simp [List.count_cons]
  · simp [List.count_cons, h]

theorem truthyId_some (s : String) : truthyId (some s) = !s.isEmpty := rfl

theorem not_mem_of_guard (s : String) (l : List String) (he : s.isEmpty = false)
    (hg : idInProcessed (some s) l = false) : s ∉ l := by
  intro hs
  rw [idInProcessed_true s l he hs] at hg
  cases hg

/-- Componentwise description of the self step of process_object. -/
theorem selfStep_desc (SpeckleId target_key : String) (target_value : Value)
    (a : Addr) (node : NodeRec) (st : St) :
    (selfStep SpeckleId target_key target_value a node st).1 =
      { heap := if hasattrKey node target_key then
            updateAddr st.heap a (setField node target_key target_value) else st.heap,
        processed := if truthyId node.id then node.id.getD "" :: st.processed
            else st.processed,
        changed_ids := st.changed_ids ++
            (if hasattrKey node target_key then [node.id] else []),
        same_ids := st.same_ids ++
            (if node.id ≠ some SpeckleId then [node.id] else []) } := by
  unfold selfStep
  by_cases h1 : truthyId node.id <;>
    by_cases h2 : node.id ≠ some SpeckleId <;>
      by_cases h3 : hasattrKey node target_key <;>
        simp [h1, h2, h3]

/-- The returned change flag of the self step is the field-membership test. -/
theorem selfStep_flag (SpeckleId target_key : String) (target_value : Value)
    (a : Addr) (node : NodeRec) (st : St) :
    (selfStep SpeckleId target_key target_value a node st).2 =
      hasattrKey node target_key := by
  unfold selfStep
  by_cases h1 : truthyId node.id <;>
    by_cases h2 : node.id ≠ some SpeckleId <;>
      by_cases h3 : hasattrKey node target_key <;>
        simp [h1, h2, h3]

theorem invar_selfStep (SpeckleId target_key : String) (target_value : Value)
    (a : Addr) (node : NodeRec) (st : St)
    (hn : lookupAddr st.heap a = some node)
    (hg : idInProcessed node.id st.processed = false) :
    Invar SpeckleId target_key target_value st
      (selfStep SpeckleId target_key target_value a node st).1 := by
  rw [selfStep_desc]
  constructor
  case procMono =>
    intro s hs
    by_cases h1 : truthyId node.id <;> simp [h1]
    · exact Or.inr hs
    · exact hs
  case chApp => exact ⟨_, rfl⟩
  case smApp => exact ⟨_, rfl⟩
  case frame =>
    intro b
    by_cases h3 : hasattrKey node target_key
    · by_cases hb : b = a
      · subst hb
        refine Or.inr ⟨node, hn, h3, ?_, ?_⟩
        · simp only [if_pos h3]
          exact lookupAddr_updateAddr_self _ _ _ _ hn
        · cases hid : node.id with
          | none => exact Or.inl rfl
          | some s =>
            refine Or.inr ⟨s, rfl, ?_⟩
            cases he : s.isEmpty with
            | true => exact Or.inl rfl
            | false =>
              right
              simp [truthyId_some, he]
      · left
        simp only [if_pos h3]
        exact lookupAddr_updateAddr_ne _ _ _ _ hb
    · left
      simp only [if_neg h3]
  case chCount =>
    intro s hse
    dsimp only
    by_cases h3 : hasattrKey node target_key
    · rw [if_pos h3, count_append_single]
      by_cases hid : (some s : Option String) = node.id
      · have hnid : node.id = some s := hid.symm
        have hsp : s ∉ st.processed := by
          rw [hnid] at hg
          exact not_mem_of_guard s _ hse hg
        constructor
        · rw [if_pos hid, if_neg hsp]
        · intro _
          rw [hnid]
          simp [truthyId_some, hse]
      · rw [if_neg hid]
        exact ⟨by omega, fun h => (h (by omega)).elim⟩
    · rw [if_neg h3, List.append_nil]
      exact ⟨Nat.le_add_right _ _, fun h => absurd rfl h⟩
  case smCount =>
    intro s hse
    dsimp only
    by_cases h2 : node.id ≠ some SpeckleId
    · rw [if_pos h2, count_append_single]
      by_cases hid : (some s : Option String) = node.id
      · have hnid : node.id = some s := hid.symm
        have hsp : s ∉ st.processed := by
          rw [hnid] at hg
          exact not_mem_of_guard s _ hse hg
        constructor
        · rw [if_pos hid, if_neg hsp]
        · intro _
          rw [hnid]
          simp [truthyId_some, hse]
      · rw [if_neg hid]
        exact ⟨by omega, fun h => (h (by omega)).elim⟩
    · rw [if_neg h2, List.append_nil]
      exact ⟨Nat.le_add_right _ _, fun h => absurd rfl h⟩
  case newProc =>
    intro s hse hsin hsout
    dsimp only at hsin ⊢
    by_cases h1 : truthyId node.id
    case neg =>
      rw [if_neg h1] at hsin
      exact absurd hsin hsout
    rw [if_pos h1] at hsin
    have hnid : node.id = some s := by
      cases hid : node.id with
      | none => rw [hid] at h1; cases h1
      | some s' =>
        rw [hid] at hsin
        simp only [Option.getD_some] at hsin
        rcases List.mem_cons.mp hsin with h | h
        · rw [h]
        · exact absurd h hsout
    refine ⟨a, node, hn, hnid, ?_, ?_, ?_⟩
    · by_cases h3 : hasattrKey node target_key
      · rw [if_pos h3, if_pos h3, count_append_single, hnid,
          if_pos (rfl : (some s : Option String) = some s)]
      · rw [if_neg h3, if_neg h3, List.append_nil, Nat.add_zero]
    · by_cases htok : s = SpeckleId
      · have hcond : ¬ node.id ≠ some SpeckleId := by
          rw [hnid, htok]
          exact fun h => h rfl
        rw [if_neg hcond, if_pos htok, List.append_nil, Nat.add_zero]
      · have hcond : node.id ≠ some SpeckleId := by
          rw [hnid]
          exact fun h => htok (Option.some.inj h)
        rw [if_pos hcond, if_neg htok, count_append_single, hnid,
          if_pos (rfl : (some s : Option String) = some s)]
    · intro h3
      rw [if_pos h3]
      exact lookupAddr_updateAddr_self _ _ _ _ hn
  case chSrc =>
    intro s hmem
    rcases List.mem_append.mp hmem with h | h
    · exact Or.inl h
    · by_cases h3 : hasattrKey node target_key
      · rw [if_pos h3] at h
        rcases List.mem_singleton.mp h with h'
        exact Or.inr ⟨a, node, hn, h'.symm, h3⟩
      · rw [if_neg h3] at h
        cases h
  case tokCount =>
    by_cases h2 : node.id ≠ some SpeckleId
    · rw [if_pos h2, count_append_single,
        if_neg (fun h : (some SpeckleId : Option String) = node.id => h2 h.symm)]
      omega
    · rw [if_neg h2, List.append_nil]
  case procNew =>
    intro s hs
    by_cases h1 : truthyId node.id
    · rw [if_pos h1] at hs
      rcases List.mem_cons.mp hs with h | h
      · right
        cases hid : node.id with
        | none => rw [hid] at h1; cases h1
        | some s' =>
          rw [hid] at h1 h
          simp only [Option.getD_some] at h
          rw [truthyId_some] at h1
          subst h
          cases he : s.isEmpty
          · rfl
          · rw [he] at h1; cases h1
      · exact Or.inl h
    · rw [if_neg h1] at hs
      exact Or.inl hs

theorem invar_processListA (SpeckleId target_key : String) (target_value : Value)
    (recO : Value → St → St × Bool)
    (hrec : ∀ v st, Invar SpeckleId target_key target_value st (recO v st).1) :
    ∀ (items : List Value) (st : St),
      Invar SpeckleId target_key target_value st (processListA recO items st).1 := by
  intro items
  induction items with
  | nil =>
    intro st
    exact Invar.selfRel _ _ _ _
  | cons item rest ih =>
    intro st
    cases item with
    | vref b =>
      simp only [processListA]
      exact Invar.trans (hrec (Value.vref b) st) (ih _)
    | vnull => simpa only [processListA] using ih st
    | vstr s => simpa only [processListA] using ih st
    | vlist xs => simpa only [processListA] using ih st
    | vraise => simpa only [processListA] using ih st

theorem invar_processMembersA (SpeckleId target_key : String) (target_value : Value)
    (recO : Value → St → St × Bool) (a : Addr)
    (hrec : ∀ v st, Invar SpeckleId target_key target_value st (recO v st).1) :
    ∀ (names : List String) (st : St) (acc : Bool),
      Invar SpeckleId target_key target_value st (processMembersA recO a names st acc).1 := by
  intro names
  induction names with
  | nil =>
    intro st acc
    exact Invar.selfRel _ _ _ _
  | cons name rest ih =>
    intro st acc
    cases hl : lookupAddr st.heap a with
    | none => simpa only [processMembersA, hl] using ih st acc
    | some node =>
      cases hv : getattrE node name with
      | error e => simpa only [processMembersA, hl, hv] using ih st acc
      | ok value =>
        cases value with
        | vref b =>
          simp only [processMembersA, hl, hv]
          exact Invar.trans (hrec (Value.vref b) st) (ih _ _)
        | vlist items =>
          simp only [processMembersA, hl, hv]
          exact Invar.trans
            (invar_processListA SpeckleId target_key target_value recO hrec items st) (ih _ _)
        | vnull => simpa only [processMembersA, hl, hv] using ih st acc
        | vstr s => simpa only [processMembersA, hl, hv] using ih st acc
        | vraise => simpa only [processMembersA, hl, hv] using ih st acc

/-- Every call of the walker relates its entry and exit states by Invar. -/
theorem invar_process_object (SpeckleId target_key : String) (target_value : Value)
    (max_depth : Nat) :
    ∀ (fuel depth : Nat) (v : Value) (st : St),
      Invar SpeckleId target_key target_value st
        (process_object SpeckleId target_key target_value max_depth fuel depth v st).1 := by
  intro fuel
  induction fuel with
  | zero =>
    intro depth v st
    exact Invar.selfRel _ _ _ _
  | succ f ih =>
    intro depth v st
    by_cases hd : max_depth < depth
    · simp only [process_object, if_pos hd]
      exact Invar.selfRel _ _ _ _
    · cases v with
      | vref a =>
        cases hl : lookupAddr st.heap a with
        | none =>
          simp only [process_object, if_neg hd, hl]
          exact Invar.selfRel _ _ _ _
        | some node =>
          cases hgb : idInProcessed node.id st.processed with
          | true =>
            simp only [process_object, if_neg hd, hl, hgb, if_true]
            exact Invar.selfRel _ _ _ _
          | false =>
            simp only [process_object, if_neg hd, hl, hgb, Bool.false_eq_true, if_false]
            exact Invar.trans
              (invar_selfStep SpeckleId target_key target_value a node st hl hgb)
              (invar_processMembersA SpeckleId target_key target_value _ a
                (fun v st => ih (depth + 1) v st) _ _ _)
      | vnull =>
        simp only [process_object, if_neg hd]
        exact Invar.selfRel _ _ _ _
      | vstr s =>
        simp only [process_object, if_neg hd]
        exact Invar.selfRel _ _ _ _
      | vlist xs =>
        simp only [process_object, if_neg hd]
        exact Invar.selfRel _ _ _ _
      | vraise =>
        simp only [process_object, if_neg hd]
        exact Invar.selfRel _ _ _ _

/-! Unfolding equations for the walker's control paths. -/

theorem hasattrKey_exists (n : NodeRec) (key : String) (h : hasattrKey n key = true) :
    ∃ w, getFieldList n.fields key = some w := by
  unfold hasattrKey at h
  cases hw : getFieldList n.fields key with
  | none => rw [hw] at h; cases h
  | some w => exact ⟨w, rfl⟩

theorem selfStep_heap (SpeckleId target_key : String) (target_value : Value)
    (a : Addr) (node : NodeRec) (st : St)
    (hn : lookupAddr st.heap a = some node) :
    lookupAddr (selfStep SpeckleId target_key target_value a node st).1.heap a =
      some (if hasattrKey node target_key then
        setField node target_key target_value else node) := by
  rw [selfStep_desc]
  dsimp only
  by_cases h3 : hasattrKey node target_key
  · rw [if_pos h3, if_pos h3]
    exact lookupAddr_updateAddr_self _ _ _ _ hn
  · rw [if_neg h3, if_neg h3]
    exact hn

/-- Depth guard (source line 158): past the ceiling the walk reports no
change and touches nothing. -/
theorem process_object_cutoff (SpeckleId target_key : String) (target_value : Value)
    (max_depth : Nat) (fuel depth : Nat) (v : Value) (st : St)
    (hd : max_depth < depth) :
    process_object SpeckleId target_key target_value max_depth fuel depth v st
      = (st, false) := by
  cases fuel with
  | zero => rfl
  | succ f => simp only [process_object, if_pos hd]

/-- Visited-set guard (source line 169): a node whose truthy id is
already in processed is skipped with no change. -/
theorem process_object_visited (SpeckleId target_key : String) (target_value : Value)
    (max_depth : Nat) (fuel depth : Nat) (a : Addr) (node : NodeRec) (st : St)
    (hl : lookupAddr st.heap a = some node)
    (hg : idInProcessed node.id st.processed = true) :
    process_object SpeckleId target_key target_value max_depth fuel depth
      (Value.vref a) st = (st, false) := by
  cases fuel with
  | zero => rfl
  | succ f =>
    by_cases hd : max_depth < depth
    · simp only [process_object, if_pos hd]
    · simp only [process_object, if_neg hd, hl, hg, if_true]

/-- Unfolding of one processed node: guards passed, the self step runs,
then the member loop at depth + 1 starting from the post-step state
(whose visited set already contains the node's truthy id). -/
theorem process_object_step (SpeckleId target_key : String) (target_value : Value)
    (max_depth : Nat) (f depth : Nat) (a : Addr) (node : NodeRec) (st : St)
    (hd : ¬ max_depth < depth)
    (hl : lookupAddr st.heap a = some node)
    (hg : idInProcessed node.id st.processed = false) :
    process_object SpeckleId target_key target_value max_depth (f + 1) depth
      (Value.vref a) st =
      processMembersA (process_object SpeckleId target_key target_value max_depth f
          (depth + 1)) a (node.fields.map Prod.fst)
        (selfStep SpeckleId target_key target_value a node st).1
        (selfStep SpeckleId target_key target_value a node st).2 := by
  simp only [process_object, if_neg hd, hl, hg, Bool.false_eq_true, if_false]
  congr 1
  rw [selfStep_heap SpeckleId target_key target_value a node st hl]
  by_cases h3 : hasattrKey node target_key
  · rw [if_pos h3]
    obtain ⟨w, hw⟩ := hasattrKey_exists node target_key h3
    exact map_fst_setFieldList _ _ _ _ hw
  · rw [if_neg h3]

theorem processMembersA_inert (recO : Value → St → St × Bool) (a : Addr)
    (hrec : ∀ v st, recO v st = (st, false)) :
    ∀ (names : List String) (st : St) (acc : Bool),
      processMembersA recO a names st acc = (st, acc) := by
  intro names
  induction names with
  | nil => intro st acc; rfl
  | cons name rest ih =>
    intro st acc
    have hlist : ∀ (items : List Value) (st' : St),
        processListA recO items st' = (st', false) := by
      intro items
      induction items with
      | nil => intro st'; rfl
      | cons item irest iih =>
        intro st'
        cases item with
        | vref b => simp only [processListA, hrec, iih, Bool.or_false]
        | vnull => simpa only [processListA] using iih st'
        | vstr s => simpa only [processListA] using iih st'
        | vlist xs => simpa only [processListA] using iih st'
        | vraise => simpa only [processListA] using iih st'
    cases hlk : lookupAddr st.heap a with
    | none => simpa only [processMembersA, hlk] using ih st acc
    | some node =>
      cases hv : getattrE node name with
      | error e => simpa only [processMembersA, hlk, hv] using ih st acc
      | ok value =>
        cases value with
        | vref b =>
          simp only [processMembersA, hlk, hv, hrec, ih, Bool.or_false]
        | vlist items =>
          simp only [processMembersA, hlk, hv, hlist, ih, Bool.or_false]
        | vnull => simpa only [processMembersA, hlk, hv] using ih st acc
        | vstr s => simpa only [processMembersA, hlk, hv] using ih st acc
        | vraise => simpa only [processMembersA, hlk, hv] using ih st acc

/-- Member-fetch failure isolation (source lines 204-224): when fetching
one member raises, the walk catches it and continues with the remaining
members, with state and change flag untouched by the bad member. -/
theorem processMembersA_skip_error (recO : Value → St → St × Bool) (a : Addr)
    (name : String) (rest : List String) (st : St) (acc : Bool) (node : NodeRec)
    (hl : lookupAddr st.heap a = some node)
    (he : getattrE node name = Except.error ()) :
    processMembersA recO a (name :: rest) st acc =
      processMembersA recO a rest st acc := by
  simp only [processMembersA, hl, he]

/-! Simulation of a rerun of the walk on the already-mutated heap. -/

theorem sim_selfStep (SpeckleId target_key : String) (target_value : Value)
    (htv : target_value ≠ Value.vraise) (a : Addr) (n n2 : NodeRec) (st1 st2 : St)
    (hP : st2.processed = st1.processed) (hC : st2.changed_ids = st1.changed_ids)
    (hS : st2.same_ids = st1.same_ids)
    (hrel : heapRel target_key target_value st1.heap st2.heap)
    (hn1 : lookupAddr st1.heap a = some n)
    (hn2 : lookupAddr st2.heap a = some n2)
    (hnn : n2 = n ∨ (hasattrKey n target_key = true ∧
      n2 = setField n target_key target_value)) :
    (selfStep SpeckleId target_key target_value a n2 st2).1.processed
      = (selfStep SpeckleId target_key target_value a n st1).1.processed ∧
    (selfStep SpeckleId target_key target_value a n2 st2).1.changed_ids
      = (selfStep SpeckleId target_key target_value a n st1).1.changed_ids ∧
    (selfStep SpeckleId target_key target_value a n2 st2).1.same_ids
      = (selfStep SpeckleId target_key target_value a n st1).1.same_ids ∧
    heapRel target_key target_value
      (selfStep SpeckleId target_key target_value a n st1).1.heap
      (selfStep SpeckleId target_key target_value a n2 st2).1.heap ∧
    (∀ b, lookupAddr st2.heap b = lookupAddr st1.heap b →
      lookupAddr (selfStep SpeckleId target_key target_value a n2 st2).1.heap b
        = lookupAddr (selfStep SpeckleId target_key target_value a n st1).1.heap b) ∧
    lookupAddr (selfStep SpeckleId target_key target_value a n2 st2).1.heap a
      = lookupAddr (selfStep SpeckleId target_key target_value a n st1).1.heap a ∧
    (selfStep SpeckleId target_key target_value a n2 st2).2
      = (selfStep SpeckleId target_key target_value a n st1).2 ∧
    n2.fields.map Prod.fst = n.fields.map Prod.fst := by
  have hidEq : n2.id = n.id := by
    rcases hnn with rfl | ⟨hk, rfl⟩
    · rfl
    · exact setField_id _ _ _
  have hkEq : hasattrKey n2 target_key = hasattrKey n target_key := by
    rcases hnn with rfl | ⟨hk, rfl⟩
    · rfl
    · rw [hasattrKey_setField_self n target_key target_value htv, hk]
  have hnames : n2.fields.map Prod.fst = n.fields.map Prod.fst := by
    rcases hnn with rfl | ⟨hk, rfl⟩
    · rfl
    · obtain ⟨w, hw⟩ := hasattrKey_exists n target_key hk
      exact map_fst_setFieldList _ _ _ _ hw
  have hset2 : setField n2 target_key target_value
      = setField n target_key target_value := by
    rcases hnn with rfl | ⟨hk, rfl⟩
    · rfl
    · exact setField_idem _ _ _
  refine ⟨?_, ?_, ?_, ?_, ?_, ?_, ?_, hnames⟩
  · rw [selfStep_desc, selfStep_desc]
    dsimp only
    rw [hidEq, hP]
  · rw [selfStep_desc, selfStep_desc]
    dsimp only
    rw [hidEq, hkEq, hC]
  · rw [selfStep_desc, selfStep_desc]
    dsimp only
    rw [hidEq, hS]
  · rw [selfStep_desc, selfStep_desc]
    dsimp only
    by_cases hk1 : hasattrKey n target_key
    · rw [if_pos hk1, if_pos (hkEq.trans (by rw [hk1]) : hasattrKey n2 target_key = true)]
      intro b
      by_cases hb : b = a
      · subst hb
        left
        rw [lookupAddr_updateAddr_self _ _ _ _ hn1,
          lookupAddr_updateAddr_self _ _ _ _ hn2, hset2]
      · have hb' : b ≠ a := hb
        rw [lookupAddr_updateAddr_ne _ _ _ _ hb', lookupAddr_updateAddr_ne _ _ _ _ hb']
        exact hrel b
    · have hk2 : ¬ hasattrKey n2 target_key = true := by
        rw [hkEq]
        exact hk1
      rw [if_neg hk1, if_neg hk2]
      exact hrel
  · rw [selfStep_desc, selfStep_desc]
    dsimp only
    intro b hbe
    by_cases hk1 : hasattrKey n target_key
    · rw [if_pos hk1, if_pos (hkEq.trans (by rw [hk1]) : hasattrKey n2 target_key = true)]
      by_cases hb : b = a
      · subst hb
        rw [lookupAddr_updateAddr_self _ _ _ _ hn1,
          lookupAddr_updateAddr_self _ _ _ _ hn2, hset2]
      · have hb' : b ≠ a := hb
        rw [lookupAddr_updateAddr_ne _ _ _ _ hb', lookupAddr_updateAddr_ne _ _ _ _ hb']
        exact hbe
    · have hk2 : ¬ hasattrKey n2 target_key = true := by
        rw [hkEq]
        exact hk1
      rw [if_neg hk1, if_neg hk2]
      exact hbe
  · rw [selfStep_desc, selfStep_desc]
    dsimp only
    by_cases hk1 : hasattrKey n target_key
    · rw [if_pos hk1, if_pos (hkEq.trans (by rw [hk1]) : hasattrKey n2 target_key = true)]
      rw [lookupAddr_updateAddr_self _ _ _ _ hn1,
        lookupAddr_updateAddr_self _ _ _ _ hn2, hset2]
    · have hk2 : ¬ hasattrKey n2 target_key = true := by
        rw [hkEq]
        exact hk1
      rw [if_neg hk1, if_neg hk2]
      rw [hn1, hn2]
      rcases hnn with rfl | ⟨hk, rfl⟩
      · rfl
      · exact absurd hk hk1
  · rw [selfStep_flag, selfStep_flag, hkEq]

theorem sim_processListA (target_key : String) (target_value : Value)
    (recO1 recO2 : Value → St → St × Bool)
    (hpair : ∀ v st1 st2, stRel target_key target_value st1 st2 →
      stRel target_key target_value (recO1 v st1).1 (recO2 v st2).1 ∧
      (recO2 v st2).2 = (recO1 v st1).2 ∧
      (∀ b, lookupAddr st2.heap b = lookupAddr st1.heap b →
        lookupAddr (recO2 v st2).1.heap b = lookupAddr (recO1 v st1).1.heap b)) :
    ∀ (items : List Value) (st1 st2 : St), stRel target_key target_value st1 st2 →
      stRel target_key target_value (processListA recO1 items st1).1
        (processListA recO2 items st2).1 ∧
      (processListA recO2 items st2).2 = (processListA recO1 items st1).2 ∧
      (∀ b, lookupAddr st2.heap b = lookupAddr st1.heap b →
        lookupAddr (processListA recO2 items st2).1.heap b
          = lookupAddr (processListA recO1 items st1).1.heap b) := by
  intro items
  induction items with
  | nil =>
    intro st1 st2 hrel
    exact ⟨hrel, rfl, fun b hb => hb⟩
  | cons item rest ih =>
    intro st1 st2 hrel
    cases item with
    | vref b0 =>
      obtain ⟨hrel', hfl, hag⟩ := hpair (Value.vref b0) st1 st2 hrel
      obtain ⟨hrel'', hfl', hag'⟩ := ih (recO1 (Value.vref b0) st1).1
        (recO2 (Value.vref b0) st2).1 hrel'
      refine ⟨?_, ?_, ?_⟩
      · simpa only [processListA] using hrel''
      · simp only [processListA]
        rw [hfl, hfl']
      · intro b hb
        simp only [processListA]
        exact hag' b (hag b hb)
    | vnull => simpa only [processListA] using ih st1 st2 hrel
    | vstr s => simpa only [processListA] using ih st1 st2 hrel
    | vlist xs => simpa only [processListA] using ih st1 st2 hrel
    | vraise => simpa only [processListA] using ih st1 st2 hrel

theorem sim_processMembersA (target_key : String) (target_value : Value)
    (recO1 recO2 : Value → St → St × Bool) (a : Addr)
    (hpair : ∀ v st1 st2, stRel target_key target_value st1 st2 →
      stRel target_key target_value (recO1 v st1).1 (recO2 v st2).1 ∧
      (recO2 v st2).2 = (recO1 v st1).2 ∧
      (∀ b, lookupAddr st2.heap b = lookupAddr st1.heap b →
        lookupAddr (recO2 v st2).1.heap b = lookupAddr (recO1 v st1).1.heap b)) :
    ∀ (names : List String) (st1 st2 : St) (acc : Bool),
      stRel target_key target_value st1 st2 →
      lookupAddr st2.heap a = lookupAddr st1.heap a →
      stRel target_key target_value (processMembersA recO1 a names st1 acc).1
        (processMembersA recO2 a names st2 acc).1 ∧
      (processMembersA recO2 a names st2 acc).2
        = (processMembersA recO1 a names st1 acc).2 ∧
      (∀ b, lookupAddr st2.heap b = lookupAddr st1.heap b →
        lookupAddr (processMembersA recO2 a names st2 acc).1.heap b
          = lookupAddr (processMembersA recO1 a names st1 acc).1.heap b) := by
  intro names
  induction names with
  | nil =>
    intro st1 st2 acc hrel hA
    exact ⟨hrel, rfl, fun b hb => hb⟩
  | cons name rest ih =>
    intro st1 st2 acc hrel hA
    cases hl1 : lookupAddr st1.heap a with
    | none =>
      have hl2 : lookupAddr st2.heap a = none := by rw [hA, hl1]
      obtain ⟨hrel', hfl, hag⟩ := ih st1 st2 acc hrel hA
      exact ⟨by simpa only [processMembersA, hl1, hl2] using hrel',
        by simpa only [processMembersA, hl1, hl2] using hfl,
        by simpa only [processMembersA, hl1, hl2] using hag⟩
    | some node =>
      have hl2 : lookupAddr st2.heap a = some node := by rw [hA, hl1]
      cases hv : getattrE node name with
      | error e =>
        obtain ⟨hrel', hfl, hag⟩ := ih st1 st2 acc hrel hA
        exact ⟨by simpa only [processMembersA, hl1, hl2, hv] using hrel',
          by simpa only [processMembersA, hl1, hl2, hv] using hfl,
          by simpa only [processMembersA, hl1, hl2, hv] using hag⟩
      | ok value =>
        cases value with
        | vref b0 =>
          obtain ⟨hrel', hfl, hag⟩ := hpair (Value.vref b0) st1 st2 hrel
          obtain ⟨hrel'', hfl', hag'⟩ := ih (recO1 (Value.vref b0) st1).1
            (recO2 (Value.vref b0) st2).1 (acc || (recO1 (Value.vref b0) st1).2)
            hrel' (hag a hA)
          simp only [processMembersA, hl1, hl2, hv, hfl]
          exact ⟨hrel'', hfl', fun b hb => hag' b (hag b hb)⟩
        | vlist items =>
          obtain ⟨hrel', hfl, hag⟩ := sim_processListA target_key target_value
            recO1 recO2 hpair items st1 st2 hrel
          obtain ⟨hrel'', hfl', hag'⟩ := ih (processListA recO1 items st1).1
            (processListA recO2 items st2).1 (acc || (processListA recO1 items st1).2)
            hrel' (hag a hA)
          simp only [processMembersA, hl1, hl2, hv, hfl]
          exact ⟨hrel'', hfl', fun b hb => hag' b (hag b hb)⟩
        | vnull =>
          obtain ⟨hrel', hfl, hag⟩ := ih st1 st2 acc hrel hA
          exact ⟨by simpa only [processMembersA, hl1, hl2, hv] using hrel',
            by simpa only [processMembersA, hl1, hl2, hv] using hfl,
            by simpa only [processMembersA, hl1, hl2, hv] using hag⟩
        | vstr s =>
          obtain ⟨hrel', hfl, hag⟩ := ih st1 st2 acc hrel hA
          exact ⟨by simpa only [processMembersA, hl1, hl2, hv] using hrel',
            by simpa only [processMembersA, hl1, hl2, hv] using hfl,
            by simpa only [processMembersA, hl1, hl2, hv] using hag⟩
        | vraise =>
          obtain ⟨hrel', hfl, hag⟩ := ih st1 st2 acc hrel hA
          exact ⟨by simpa only [processMembersA, hl1, hl2, hv] using hrel',
            by simpa only [processMembersA, hl1, hl2, hv] using hfl,
            by simpa only [processMembersA, hl1, hl2, hv] using hag⟩

/-- A rerun of any call on a state whose heap already carries some of
the rewrites behaves identically: same flag, same ledgers, same visited
set, and the two result heaps again differ only by already-applied
rewrites, with agreement preserved pointwise. -/
theorem sim_process_object (SpeckleId target_key : String) (target_value : Value)
    (max_depth : Nat) (htv : target_value ≠ Value.vraise) :
    ∀ (fuel depth : Nat) (v : Value) (st1 st2 : St),
      stRel target_key target_value st1 st2 →
      stRel target_key target_value
        (process_object SpeckleId target_key target_value max_depth fuel depth v st1).1
        (process_object SpeckleId target_key target_value max_depth fuel depth v st2).1 ∧
      (process_object SpeckleId target_key target_value max_depth fuel depth v st2).2
        = (process_object SpeckleId target_key target_value max_depth fuel depth v st1).2 ∧
      (∀ b, lookupAddr st2.heap b = lookupAddr st1.heap b →
        lookupAddr (process_object SpeckleId target_key target_value max_depth fuel
            depth v st2).1.heap b
          = lookupAddr (process_object SpeckleId target_key target_value max_depth fuel
            depth v st1).1.heap b) := by
  intro fuel
  induction fuel with
  | zero =>
    intro depth v st1 st2 hrel
    exact ⟨hrel, rfl, fun b hb => hb⟩
  | succ f ih =>
    intro depth v st1 st2 hrel
    obtain ⟨hP, hC, hS, hH⟩ := hrel
    by_cases hd : max_depth < depth
    · rw [process_object_cutoff _ _ _ _ _ _ _ _ hd,
        process_object_cutoff _ _ _ _ _ _ _ _ hd]
      exact ⟨⟨hP, hC, hS, hH⟩, rfl, fun b hb => hb⟩
    · cases v with
      | vnull =>
        simp only [process_object, if_neg hd]
        exact ⟨⟨hP, hC, hS, hH⟩, by trivial, fun b hb => hb⟩
      | vstr s =>
        simp only [process_object, if_neg hd]
        exact ⟨⟨hP, hC, hS, hH⟩, by trivial, fun b hb => hb⟩
      | vlist xs =>
        simp only [process_object, if_neg hd]
        exact ⟨⟨hP, hC, hS, hH⟩, by trivial, fun b hb => hb⟩
      | vraise =>
        simp only [process_object, if_neg hd]
        exact ⟨⟨hP, hC, hS, hH⟩, by trivial, fun b hb => hb⟩
      | vref a =>
        rcases hH a with heq | ⟨n, hn1, hkn, hn2⟩
        · cases hl1 : lookupAddr st1.heap a with
          | none =>
            have hl2 : lookupAddr st2.heap a = none := by rw [heq, hl1]
            simp only [process_object, if_neg hd, hl1, hl2]
            exact ⟨⟨hP, hC, hS, hH⟩, by trivial, fun b hb => hb⟩
          | some node =>
            have hl2 : lookupAddr st2.heap a = some node := by rw [heq, hl1]
            cases hgb : idInProcessed node.id st1.processed with
            | true =>
              rw [process_object_visited _ _ _ _ _ _ _ _ _ hl1 hgb,
                process_object_visited _ _ _ _ _ _ _ _ _ hl2 (by rw [hP]; exact hgb)]
              exact ⟨⟨hP, hC, hS, hH⟩, rfl, fun b hb => hb⟩
            | false =>
              rw [process_object_step _ _ _ _ _ _ _ _ _ hd hl1 hgb,
                process_object_step _ _ _ _ _ _ _ _ _ hd hl2 (by rw [hP]; exact hgb)]
              obtain ⟨qP, qC, qS, qH, qAg, qA, qFl, _⟩ :=
                sim_selfStep SpeckleId target_key target_value htv a node node st1 st2
                  hP hC hS hH hl1 hl2 (Or.inl rfl)
              rw [qFl]
              obtain ⟨hrel'', hfl', hag'⟩ := sim_processMembersA target_key target_value
                (process_object SpeckleId target_key target_value max_depth f (depth + 1))
                (process_object SpeckleId target_key target_value max_depth f (depth + 1))
                a (fun v st1 st2 hr => ih (depth + 1) v st1 st2 hr)
                (node.fields.map Prod.fst)
                (selfStep SpeckleId target_key target_value a node st1).1
                (selfStep SpeckleId target_key target_value a node st2).1
                (selfStep SpeckleId target_key target_value a node st1).2
                ⟨qP, qC, qS, qH⟩ qA
              exact ⟨hrel'', hfl', fun b hb => hag' b (qAg b hb)⟩
        · -- the second heap carries the rewrite of the node at a already
          have hid2 : (setField n target_key target_value).id = n.id :=
            setField_id _ _ _
          cases hgb : idInProcessed n.id st1.processed with
          | true =>
            rw [process_object_visited _ _ _ _ _ _ _ _ _ hn1 hgb,
              process_object_visited _ _ _ _ _ _ _ _ _ hn2
                (by rw [hid2, hP]; exact hgb)]
            exact ⟨⟨hP, hC, hS, hH⟩, rfl, fun b hb => hb⟩
          | false =>
            rw [process_object_step _ _ _ _ _ _ _ _ _ hd hn1 hgb,
              process_object_step _ _ _ _ _ _ _ _ _ hd hn2
                (by rw [hid2, hP]; exact hgb)]
            obtain ⟨qP, qC, qS, qH, qAg, qA, qFl, qNames⟩ :=
              sim_selfStep SpeckleId target_key target_value htv a n
                (setField n target_key target_value) st1 st2
                hP hC hS hH hn1 hn2 (Or.inr ⟨hkn, rfl⟩)
            rw [qNames, qFl]
            obtain ⟨hrel'', hfl', hag'⟩ := sim_processMembersA target_key target_value
              (process_object SpeckleId target_key target_value max_depth f (depth + 1))
              (process_object SpeckleId target_key target_value max_depth f (depth + 1))
              a (fun v st1 st2 hr => ih (depth + 1) v st1 st2 hr)
              (n.fields.map Prod.fst)
              (selfStep SpeckleId target_key target_value a n st1).1
              (selfStep SpeckleId target_key target_value a
                (setField n target_key target_value) st2).1
              (selfStep SpeckleId target_key target_value a n st1).2
              ⟨qP, qC, qS, qH⟩ qA
            exact ⟨hrel'', hfl', fun b hb => hag' b (qAg b hb)⟩

theorem walk_def (SpeckleId target_key : String) (target_value : Value)
    (max_depth : Nat) (root : Value) (h : Heap) :
    walk SpeckleId target_key target_value max_depth root h =
      process_object SpeckleId target_key target_value max_depth
        (max_depth + 1) 0 root ⟨h, [], [], []⟩ := rfl

theorem lookupAddr_single_eq (a0 : Addr) (n0 : NodeRec) (a : Addr) (n : NodeRec)
    (h : lookupAddr [(a0, n0)] a = some n) : a = a0 ∧ n = n0 := by
  by_cases h0 : a0 = a
  · subst h0
    refine ⟨rfl, ?_⟩
    have : some n0 = some n := by simpa [lookupAddr] using h
    exact (Option.some.inj this).symm
  · simp [lookupAddr, if_neg h0] at h

/-! Machinery for the visited-exactly-once property. -/

theorem valSuccs_scalar (v : Value) (hv : notRefList v = true) : valSuccs v = [] := by
  cases v with
  | vnull => rfl
  | vstr s => rfl
  | vraise => rfl
  | vref b => cases hv
  | vlist xs => cases hv

theorem flat_setFieldList (l : List (String × Value)) (key : String) (tv : Value)
    (hw : ∀ w, getFieldList l key = some w → notRefList w = true)
    (htv : notRefList tv = true) :
    (List.map (fun p => valSuccs p.2) (setFieldList l key tv)).flatten
      = (List.map (fun p => valSuccs p.2) l).flatten := by
  induction l with
  | nil =>
    simp [setFieldList, valSuccs_scalar tv htv]
  | cons p t ih =>
    obtain ⟨f, w⟩ := p
    by_cases hf : f = key
    · subst hf
      have hws : notRefList w = true := by
        apply hw
        simp [getFieldList]
      simp [setFieldList, valSuccs_scalar tv htv, valSuccs_scalar w hws]
    · simp only [setFieldList, if_neg hf, List.map_cons, List.flatten_cons]
      rw [ih]
      intro w' hw'
      apply hw
      simp only [getFieldList, if_neg hf]
      exact hw'

theorem succs_setField (n : NodeRec) (key : String) (tv : Value)
    (hw : ∀ w, getFieldList n.fields key = some w → notRefList w = true)
    (htv : notRefList tv = true) :
    succsOfNode (setField n key tv) = succsOfNode n :=
  flat_setFieldList n.fields key tv hw htv

theorem getFieldList_of_mem_nodup (l : List (String × Value)) (f : String) (v : Value)
    (hnd : (l.map Prod.fst).Nodup) (hm : (f, v) ∈ l) : getFieldList l f = some v := by
  induction l with
  | nil => cases hm
  | cons p t ih =>
    obtain ⟨g, w⟩ := p
    rcases List.mem_cons.mp hm with heq | hmt
    · cases heq
      simp [getFieldList]
    · have hg : ¬ g = f := by
        intro hgf
        subst hgf
        have : g ∈ t.map Prod.fst := by
          exact List.mem_map.mpr ⟨(g, v), hmt, rfl⟩
        exact (List.nodup_cons.mp hnd).1 this
      simp only [getFieldList, if_neg hg]
      exact ih (List.nodup_cons.mp hnd).2 hmt

theorem mem_succsOfNode_of_val (n : NodeRec) (f : String) (v : Value) (b : Addr)
    (hm : (f, v) ∈ n.fields) (hb : b ∈ valSuccs v) : b ∈ succsOfNode n := by
  unfold succsOfNode
  rw [List.mem_flatten]
  exact ⟨valSuccs v, List.mem_map.mpr ⟨(f, v), hm, rfl⟩, hb⟩

theorem succsOfNode_decomp (n : NodeRec) (b : Addr) (hb : b ∈ succsOfNode n) :
    ∃ f v, (f, v) ∈ n.fields ∧ b ∈ valSuccs v := by
  unfold succsOfNode at hb
  rw [List.mem_flatten] at hb
  obtain ⟨s, hs, hbs⟩ := hb
  obtain ⟨p, hp, hps⟩ := List.mem_map.mp hs
  exact ⟨p.1, p.2, hp, by rw [hps]; exact hbs⟩

theorem rootedPath_snoc (h : Heap) (r0 : Addr) (l : List Addr) (a b : Addr)
    (hp : rootedPath h r0 (l ++ [a])) (he : edgeTo h a b) :
    rootedPath h r0 ((l ++ [a]) ++ [b]) := by
  obtain ⟨hhead, hchain⟩ := hp
  constructor
  · cases l with
    | nil => simpa using hhead
    | cons p t => simpa using hhead
  · refine List.Chain'.append hchain (List.chain'_singleton b) ?_
    intro x hx y hy
    have hxa : x = a := by
      rw [List.getLast?_concat] at hx
      cases hx
      rfl
    have hyb : y = b := by
      cases hy
      rfl
    rw [hxa, hyb]
    exact he

theorem idProcessedAt_mono (h0 : Heap) (st st' : St) (b : Addr)
    (hb : idProcessedAt h0 st b)
    (hmono : ∀ s, s ∈ st.processed → s ∈ st'.processed) :
    idProcessedAt h0 st' b := by
  obtain ⟨n, s, hn, hid, hs⟩ := hb
  exact ⟨n, s, hn, hid, hmono s hs⟩

/-- Between the start of a traversal (state with heap h0 and nothing
visited) and any later state, a node's heap entry is either untouched
or rewritten at the target field, with its id preserved; and it is
untouched as long as its truthy id has not been visited. -/
theorem heap_node_of_invar (SpeckleId target_key : String) (target_value : Value)
    (h0 : Heap) (st : St)
    (hInv : Invar SpeckleId target_key target_value ⟨h0, [], [], []⟩ st)
    (a : Addr) (n : NodeRec) (hn : lookupAddr h0 a = some n) :
    lookupAddr st.heap a = some n ∨
    (hasattrKey n target_key = true ∧
      lookupAddr st.heap a = some (setField n target_key target_value) ∧
      (∀ s, n.id = some s → s.isEmpty = false → s ∈ st.processed)) := by
  rcases hInv.frame a with heq | ⟨m, hm, hk, hset, hann⟩
  · left
    rw [heq]
    exact hn
  · have hmn : m = n := by
      have : lookupAddr h0 a = some m := hm
      rw [hn] at this
      exact (Option.some.inj this).symm
    subst hmn
    right
    refine ⟨hk, hset, ?_⟩
    intro s hs hse
    rcases hann with hnone | ⟨s', hs', he'⟩
    · rw [hs] at hnone
      cases hnone
    · rw [hs] at hs'
      cases Option.some.inj hs'
      rcases he' with he | hmem
      · rw [he] at hse
        cases hse
      · exact hmem

theorem heap_node_unprocessed (SpeckleId target_key : String) (target_value : Value)
    (h0 : Heap) (st : St)
    (hInv : Invar SpeckleId target_key target_value ⟨h0, [], [], []⟩ st)
    (a : Addr) (n : NodeRec) (s : String) (hn : lookupAddr h0 a = some n)
    (hid : n.id = some s) (hse : s.isEmpty = false) (hs : s ∉ st.processed) :
    lookupAddr st.heap a = some n := by
  rcases heap_node_of_invar SpeckleId target_key target_value h0 st hInv a n hn with
    h | ⟨_, _, hmem⟩
  · exact h
  · exact absurd (hmem s hid hse) hs

theorem idInProcessed_false_of_not_mem (s : String) (l : List String)
    (hs : s ∉ l) : idInProcessed (some s) l = false := by
  show (!s.isEmpty && l.contains s) = false
  cases hc : l.contains s with
  | false => exact Bool.and_false _
  | true => exact absurd ((contains_true_iff l s).mp hc) hs

theorem getattrE_ok (n : NodeRec) (key : String) (v : Value)
    (hv : getattrE n key = Except.ok v) : getFieldList n.fields key = some v := by
  unfold getattrE at hv
  cases hw : getFieldList n.fields key with
  | none => rw [hw] at hv; cases hv
  | some w =>
    rw [hw] at hv
    cases w with
    | vraise => cases hv
    | vnull => cases hv; rfl
    | vstr s => cases hv; rfl
    | vref b => cases hv; rfl
    | vlist xs => cases hv; rfl

theorem getattrE_error_val (n : NodeRec) (key : String) (v : Value)
    (he : getattrE n key = Except.error ()) (hv : getFieldList n.fields key = some v) :
    v = Value.vraise := by
  unfold getattrE at he
  rw [hv] at he
  cases v with
  | vraise => rfl
  | vnull => cases he
  | vstr s => cases he
  | vref b => cases he
  | vlist xs => cases he

theorem valSuccs_vlist_mem (items : List Value) (b : Addr) :
    b ∈ valSuccs (Value.vlist items) ↔ Value.vref b ∈ items := by
  unfold valSuccs
  rw [List.mem_filterMap]
  constructor
  · rintro ⟨x, hx, hxb⟩
    cases x with
    | vref c =>
      have : c = b := by
        simpa using hxb
      rw [← this]
      exact hx
    | vnull => cases hxb
    | vstr s => cases hxb
    | vlist xs => cases hxb
    | vraise => cases hxb
  · intro hb
    exact ⟨Value.vref b, hb, rfl⟩

/-- Depth-limited DFS completeness.  On a wellformed heap whose rooted
duplicate-free paths fit within the depth budget, processing a path
endpoint visits it, and every node newly visited during the call has
all its children visited by the end of the call. -/
theorem completeAux (SpeckleId target_key : String) (target_value : Value)
    (max_depth : Nat) (h0 : Heap) (r0 : Addr)
    (HWF : heapWF target_key h0)
    (Htv : notRefList target_value = true)
    (Hdepth : ∀ l, rootedPath h0 r0 l → l.Nodup → l.length ≤ max_depth + 1) :
    ∀ (fuel depth : Nat) (st : St) (a : Addr) (na : NodeRec) (π : List Addr),
      fuel + depth = max_depth + 1 →
      Invar SpeckleId target_key target_value ⟨h0, [], [], []⟩ st →
      lookupAddr h0 a = some na →
      rootedPath h0 r0 (π ++ [a]) →
      π.length = depth →
      π.Nodup →
      (∀ b, b ∈ π → idProcessedAt h0 st b) →
      (1 ≤ fuel →
        idProcessedAt h0
          (process_object SpeckleId target_key target_value max_depth fuel depth
            (Value.vref a) st).1 a) ∧
      coveredExt h0 st
        (process_object SpeckleId target_key target_value max_depth fuel depth
          (Value.vref a) st).1 := by
  intro fuel
  induction fuel with
  | zero =>
    intro depth st a na π hsync hInv hna hpath hlen hnodup hπ
    refine ⟨fun h1 => absurd h1 (by omega), ?_⟩
    intro c n s hc hid hmem hnot b hb
    exact absurd hmem hnot
  | succ f ih =>
    intro depth st a na π hsync hInv hna hpath hlen hnodup hπ
    have hd : ¬ max_depth < depth := by omega
    obtain ⟨s, hsid, hse⟩ := HWF.idsTruthy a na hna
    by_cases hsp : s ∈ st.processed
    · rcases heap_node_of_invar SpeckleId target_key target_value h0 st hInv a na hna with
        hunch | ⟨hk, hset, _⟩
      · have hg : idInProcessed na.id st.processed = true := by
          rw [hsid]
          exact idInProcessed_true s _ hse hsp
        rw [process_object_visited _ _ _ _ _ _ _ _ _ hunch hg]
        exact ⟨fun _ => ⟨na, s, hna, hsid, hsp⟩,
          fun c n s' _ _ hm hn _ _ => absurd hm hn⟩
      · have hg : idInProcessed (setField na target_key target_value).id
            st.processed = true := by
          rw [setField_id, hsid]
          exact idInProcessed_true s _ hse hsp
        rw [process_object_visited _ _ _ _ _ _ _ _ _ hset hg]
        exact ⟨fun _ => ⟨na, s, hna, hsid, hsp⟩,
          fun c n s' _ _ hm hn _ _ => absurd hm hn⟩
    · have hst_a : lookupAddr st.heap a = some na :=
        heap_node_unprocessed SpeckleId target_key target_value h0 st hInv
          a na s hna hsid hse hsp
      have hg : idInProcessed na.id st.processed = false := by
        rw [hsid]
        exact idInProcessed_false_of_not_mem s _ hsp
      rw [process_object_step _ _ _ _ _ _ _ _ _ hd hst_a hg]
      have hq_inv : Invar SpeckleId target_key target_value st
          (selfStep SpeckleId target_key target_value a na st).1 :=
        invar_selfStep _ _ _ _ _ _ hst_a hg
      have hq_inv0 : Invar SpeckleId target_key target_value ⟨h0, [], [], []⟩
          (selfStep SpeckleId target_key target_value a na st).1 := hInv.trans hq_inv
      have hq_proc : (selfStep SpeckleId target_key target_value a na st).1.processed
          = s :: st.processed := by
        rw [selfStep_desc]
        dsimp only
        rw [hsid]
        simp [truthyId_some, hse]
      have ha_notin : a ∉ π := by
        intro hain
        obtain ⟨nb, sb, hnb, hnbid, hsb⟩ := hπ a hain
        rw [hna] at hnb
        have hban : na = nb := Option.some.inj hnb
        rw [← hban, hsid] at hnbid
        cases Option.some.inj hnbid
        exact hsp hsb
      have hπ'_nodup : (π ++ [a]).Nodup := by
        rw [List.nodup_append]
        refine ⟨hnodup, List.nodup_singleton a, ?_⟩
        intro x hx hy
        rw [List.mem_singleton] at hy
        subst hy
        exact ha_notin hx
      have hnode30 := selfStep_heap SpeckleId target_key target_value a na st hst_a
      obtain ⟨node3, hnode3, hstab, hsucc_sub, hsfieldk⟩ : ∃ node3,
          lookupAddr (selfStep SpeckleId target_key target_value a na st).1.heap a
            = some node3 ∧
          (setField node3 target_key target_value = node3 ∨
            hasattrKey node3 target_key = false) ∧
          (∀ name v, getFieldList node3.fields name = some v →
            ∀ b, b ∈ valSuccs v → b ∈ succsOfNode na) ∧
          (∀ name v, (name, v) ∈ na.fields →
            (∀ b, b ∈ valSuccs v → False) ∨
              getFieldList node3.fields name = some v) := by
        by_cases hk : hasattrKey na target_key
        · refine ⟨setField na target_key target_value, ?_, Or.inl (setField_idem _ _ _),
            ?_, ?_⟩
          · rw [if_pos hk] at hnode30
            exact hnode30
          · intro name v hv b hb
            by_cases hnk : name = target_key
            · subst hnk
              rw [show (setField na name target_value).fields
                  = setFieldList na.fields name target_value from rfl,
                getFieldList_setFieldList_self] at hv
              cases Option.some.inj hv
              rw [valSuccs_scalar _ Htv] at hb
              cases hb
            · rw [show (setField na target_key target_value).fields
                  = setFieldList na.fields target_key target_value from rfl,
                getFieldList_setFieldList_ne _ _ _ _ hnk] at hv
              exact mem_succsOfNode_of_val na name v b (getFieldList_mem _ _ _ hv) hb
          · intro name v hnv
            by_cases hnk : name = target_key
            · subst hnk
              left
              intro b hb
              have hgv : getFieldList na.fields name = some v :=
                getFieldList_of_mem_nodup _ _ _ (HWF.namesNodup a na hna) hnv
              have hvs : notRefList v = true := HWF.targetScalar a na hna v hgv
              rw [valSuccs_scalar v hvs] at hb
              cases hb
            · right
              rw [show (setField na target_key target_value).fields
                  = setFieldList na.fields target_key target_value from rfl,
                getFieldList_setFieldList_ne _ _ _ _ hnk]
              exact getFieldList_of_mem_nodup _ _ _ (HWF.namesNodup a na hna) hnv
        · refine ⟨na, ?_, Or.inr ?_, ?_, ?_⟩
          · rw [if_neg hk] at hnode30
            exact hnode30
          · cases hx : hasattrKey na target_key
            · rfl
            · exact absurd hx hk
          · intro name v hv b hb
            exact mem_succsOfNode_of_val na name v b (getFieldList_mem _ _ _ hv) hb
          · intro name v hnv
            right
            exact getFieldList_of_mem_nodup _ _ _ (HWF.namesNodup a na hna) hnv
      have hstable : ∀ (st_i st_j : St),
          Invar SpeckleId target_key target_value st_i st_j →
          lookupAddr st_i.heap a = some node3 →
          lookupAddr st_j.heap a = some node3 := by
        intro st_i st_j hij hlook
        rcases hij.frame a with heq | ⟨m, hm, hkm, hset, _⟩
        · rw [heq]
          exact hlook
        · rw [hlook] at hm
          have hmn : m = node3 := (Option.some.inj hm).symm
          subst hmn
          rcases hstab with hidem | hfalse
          · rw [hset, hidem]
          · rw [hfalse] at hkm
            cases hkm
      have hπ'_proc : ∀ b, b ∈ π ++ [a] →
          idProcessedAt h0 (selfStep SpeckleId target_key target_value a na st).1 b := by
        intro b hb
        rcases List.mem_append.mp hb with hbπ | hba
        · exact idProcessedAt_mono _ _ _ _ (hπ b hbπ) hq_inv.procMono
        · rw [List.mem_singleton] at hba
          subst hba
          exact ⟨na, s, hna, hsid, by rw [hq_proc]; exact List.mem_cons_self _ _⟩
      have hrec : ∀ b st_i, edgeTo h0 a b →
          Invar SpeckleId target_key target_value ⟨h0, [], [], []⟩ st_i →
          (∀ c, c ∈ π ++ [a] → idProcessedAt h0 st_i c) →
          idProcessedAt h0 (process_object SpeckleId target_key target_value max_depth
            f (depth + 1) (Value.vref b) st_i).1 b ∧
          coveredExt h0 st_i (process_object SpeckleId target_key target_value max_depth
            f (depth + 1) (Value.vref b) st_i).1 := by
        intro b st_i hedge hInv_i hπ_i
        have hbsucc : b ∈ succsOfNode na := by
          obtain ⟨n', hn', hbs⟩ := hedge
          rw [hna] at hn'
          rw [← Option.some.inj hn'] at hbs
          exact hbs
        obtain ⟨nb, hnb⟩ := HWF.noDangling a na hna b hbsucc
        have hpath' : rootedPath h0 r0 ((π ++ [a]) ++ [b]) :=
          rootedPath_snoc h0 r0 π a b hpath ⟨na, hna, hbsucc⟩
        cases f with
        | zero =>
          refine ⟨?_, ?_⟩
          · by_cases hbmem : b ∈ π ++ [a]
            · exact hπ_i b hbmem
            · exfalso
              have hnodup' : ((π ++ [a]) ++ [b]).Nodup := by
                rw [List.nodup_append]
                refine ⟨hπ'_nodup, List.nodup_singleton b, ?_⟩
                intro x hx hy
                rw [List.mem_singleton] at hy
                subst hy
                exact hbmem hx
              have hbound := Hdepth _ hpath' hnodup'
              have hlen2 : ((π ++ [a]) ++ [b]).length = depth + 2 := by
                simp [List.length_append, hlen]
              omega
          · intro c n s' hc hid hmem hnot b' hb'
            exact absurd hmem hnot
        | succ f' =>
          have hr := ih (depth + 1) st_i b nb (π ++ [a]) (by omega) hInv_i hnb hpath'
            (by simp [List.length_append, hlen]) hπ'_nodup hπ_i
          exact ⟨hr.1 (by omega), hr.2⟩
      have loopL : ∀ (items : List Value) (st_i : St),
          (∀ b, Value.vref b ∈ items → b ∈ succsOfNode na) →
          Invar SpeckleId target_key target_value ⟨h0, [], [], []⟩ st_i →
          (∀ c, c ∈ π ++ [a] → idProcessedAt h0 st_i c) →
          (∀ b, Value.vref b ∈ items →
            idProcessedAt h0 (processListA (process_object SpeckleId target_key
              target_value max_depth f (depth + 1)) items st_i).1 b) ∧
          coveredExt h0 st_i (processListA (process_object SpeckleId target_key
            target_value max_depth f (depth + 1)) items st_i).1 ∧
          Invar SpeckleId target_key target_value st_i
            (processListA (process_object SpeckleId target_key target_value max_depth
              f (depth + 1)) items st_i).1 ∧
          (∀ c, c ∈ π ++ [a] →
            idProcessedAt h0 (processListA (process_object SpeckleId target_key
              target_value max_depth f (depth + 1)) items st_i).1 c) := by
        intro items
        induction items with
        | nil =>
          intro st_i hsubI hInv_i hπ_i
          exact ⟨fun b hb => absurd hb (List.not_mem_nil _),
            fun c n s' _ _ hm hn _ _ => absurd hm hn,
            Invar.selfRel _ _ _ _, hπ_i⟩
        | cons item rest ihl =>
          intro st_i hsubI hInv_i hπ_i
          cases item with
          | vref b =>
            have hedge : edgeTo h0 a b := ⟨na, hna, hsubI b (List.mem_cons_self _ _)⟩
            obtain ⟨hPb, hCov⟩ := hrec b st_i hedge hInv_i hπ_i
            have hInv_step := invar_process_object SpeckleId target_key target_value
              max_depth f (depth + 1) (Value.vref b) st_i
            obtain ⟨ih1, ih2, ih3, ih4⟩ := ihl
              (process_object SpeckleId target_key target_value max_depth f (depth + 1)
                (Value.vref b) st_i).1
              (fun b' hb' => hsubI b' (List.mem_cons_of_mem _ hb'))
              (hInv_i.trans hInv_step)
              (fun c hc => idProcessedAt_mono _ _ _ _ (hπ_i c hc) hInv_step.procMono)
            simp only [processListA]
            refine ⟨?_, ?_, hInv_step.trans ih3, ih4⟩
            · intro b' hb'
              rcases List.mem_cons.mp hb' with heq | htail
              · have hbb : b' = b := by
                  cases heq
                  rfl
                subst hbb
                exact idProcessedAt_mono _ _ _ _ hPb ih3.procMono
              · exact ih1 b' htail
            · intro c n s' hc hid hmem hnot b'' hb''
              by_cases hs2 : s' ∈ (process_object SpeckleId target_key target_value
                  max_depth f (depth + 1) (Value.vref b) st_i).1.processed
              · exact idProcessedAt_mono _ _ _ _
                  (hCov c n s' hc hid hs2 hnot b'' hb'') ih3.procMono
              · exact ih2 c n s' hc hid hmem hs2 b'' hb''
          | vnull =>
            obtain ⟨ih1, ih2, ih3, ih4⟩ := ihl st_i
              (fun b' hb' => hsubI b' (List.mem_cons_of_mem _ hb')) hInv_i hπ_i
            simp only [processListA]
            refine ⟨?_, ih2, ih3, ih4⟩
            intro b' hb'
            rcases List.mem_cons.mp hb' with heq | htail
            · exact Value.noConfusion heq
            · exact ih1 b' htail
          | vstr sv =>
            obtain ⟨ih1, ih2, ih3, ih4⟩ := ihl st_i
              (fun b' hb' => hsubI b' (List.mem_cons_of_mem _ hb')) hInv_i hπ_i
            simp only [processListA]
            refine ⟨?_, ih2, ih3, ih4⟩
            intro b' hb'
            rcases List.mem_cons.mp hb' with heq | htail
            · exact Value.noConfusion heq
            · exact ih1 b' htail
          | vlist xs =>
            obtain ⟨ih1, ih2, ih3, ih4⟩ := ihl st_i
              (fun b' hb' => hsubI b' (List.mem_cons_of_mem _ hb')) hInv_i hπ_i
            simp only [processListA]
            refine ⟨?_, ih2, ih3, ih4⟩
            intro b' hb'
            rcases List.mem_cons.mp hb' with heq | htail
            · exact Value.noConfusion heq
            · exact ih1 b' htail
          | vraise =>
            obtain ⟨ih1, ih2, ih3, ih4⟩ := ihl st_i
              (fun b' hb' => hsubI b' (List.mem_cons_of_mem _ hb')) hInv_i hπ_i
            simp only [processListA]
            refine ⟨?_, ih2, ih3, ih4⟩
            intro b' hb'
            rcases List.mem_cons.mp hb' with heq | htail
            · exact Value.noConfusion heq
            · exact ih1 b' htail
      have loopM : ∀ (names : List String) (st_i : St) (acc : Bool),
          Invar SpeckleId target_key target_value ⟨h0, [], [], []⟩ st_i →
          (∀ c, c ∈ π ++ [a] → idProcessedAt h0 st_i c) →
          lookupAddr st_i.heap a = some node3 →
          (∀ name, name ∈ names → ∀ v, getFieldList node3.fields name = some v →
            ∀ b, b ∈ valSuccs v → idProcessedAt h0
              (processMembersA (process_object SpeckleId target_key target_value
                max_depth f (depth + 1)) a names st_i acc).1 b) ∧
          coveredExt h0 st_i (processMembersA (process_object SpeckleId target_key
            target_value max_depth f (depth + 1)) a names st_i acc).1 ∧
          Invar SpeckleId target_key target_value st_i
            (processMembersA (process_object SpeckleId target_key target_value max_depth
              f (depth + 1)) a names st_i acc).1 ∧
          (∀ c, c ∈ π ++ [a] →
            idProcessedAt h0 (processMembersA (process_object SpeckleId target_key
              target_value max_depth f (depth + 1)) a names st_i acc).1 c) := by
        intro names
        induction names with
        | nil =>
          intro st_i acc hInv_i hπ_i hnode_i
          exact ⟨fun nm hnm => absurd hnm (List.not_mem_nil _),
            fun c n s' _ _ hm hn _ _ => absurd hm hn,
            Invar.selfRel _ _ _ _, hπ_i⟩
        | cons name rest ihm =>
          intro st_i acc hInv_i hπ_i hnode_i
          cases hv : getattrE node3 name with
          | error e =>
            obtain ⟨ih1, ih2, ih3, ih4⟩ := ihm st_i acc hInv_i hπ_i hnode_i
            simp only [processMembersA, hnode_i, hv]
            refine ⟨?_, ih2, ih3, ih4⟩
            intro nm hnm v hv' b hb
            rcases List.mem_cons.mp hnm with heq | htail
            · subst heq
              have hvr : v = Value.vraise := by
                apply getattrE_error_val node3 nm v ?_ hv'
                cases e
                exact hv
              rw [hvr, show valSuccs Value.vraise = [] from rfl] at hb
              exact absurd hb (List.not_mem_nil _)
            · exact ih1 nm htail v hv' b hb
          | ok value =>
            have hval : getFieldList node3.fields name = some value :=
              getattrE_ok _ _ _ hv
            cases value with
            | vref b =>
              have hbsucc : b ∈ succsOfNode na :=
                hsucc_sub name (Value.vref b) hval b
                  (by rw [show valSuccs (Value.vref b) = [b] from rfl]
                      exact List.mem_singleton.mpr rfl)
              obtain ⟨hPb, hCov⟩ := hrec b st_i ⟨na, hna, hbsucc⟩ hInv_i hπ_i
              have hInv_step := invar_process_object SpeckleId target_key target_value
                max_depth f (depth + 1) (Value.vref b) st_i
              obtain ⟨ih1, ih2, ih3, ih4⟩ := ihm
                (process_object SpeckleId target_key target_value max_depth f (depth + 1)
                  (Value.vref b) st_i).1
                (acc || (process_object SpeckleId target_key target_value max_depth
                  f (depth + 1) (Value.vref b) st_i).2)
                (hInv_i.trans hInv_step)
                (fun c hc => idProcessedAt_mono _ _ _ _ (hπ_i c hc) hInv_step.procMono)
                (hstable _ _ hInv_step hnode_i)
              simp only [processMembersA, hnode_i, hv]
              refine ⟨?_, ?_, hInv_step.trans ih3, ih4⟩
              · intro nm hnm v hv' b' hb'
                rcases List.mem_cons.mp hnm with heq | htail
                · subst heq
                  rw [hval] at hv'
                  cases Option.some.inj hv'
                  have hbb : b' = b := by
                    rw [show valSuccs (Value.vref b) = [b] from rfl] at hb'
                    exact List.mem_singleton.mp hb'
                  subst hbb
                  exact idProcessedAt_mono _ _ _ _ hPb ih3.procMono
                · exact ih1 nm htail v hv' b' hb'
              · intro c n s' hc hid hmem hnot b'' hb''
                by_cases hs2 : s' ∈ (process_object SpeckleId target_key target_value
                    max_depth f (depth + 1) (Value.vref b) st_i).1.processed
                · exact idProcessedAt_mono _ _ _ _
                    (hCov c n s' hc hid hs2 hnot b'' hb'') ih3.procMono
                · exact ih2 c n s' hc hid hmem hs2 b'' hb''
            | vlist items =>
              have hsubI : ∀ b, Value.vref b ∈ items → b ∈ succsOfNode na := by
                intro b hb
                exact hsucc_sub name (Value.vlist items) hval b
                  ((valSuccs_vlist_mem items b).mpr hb)
              obtain ⟨l1, l2, l3, l4⟩ := loopL items st_i hsubI hInv_i hπ_i
              obtain ⟨ih1, ih2, ih3, ih4⟩ := ihm
                (processListA (process_object SpeckleId target_key target_value max_depth
                  f (depth + 1)) items st_i).1
                (acc || (processListA (process_object SpeckleId target_key target_value
                  max_depth f (depth + 1)) items st_i).2)
                (hInv_i.trans l3) l4 (hstable _ _ l3 hnode_i)
              simp only [processMembersA, hnode_i, hv]
              refine ⟨?_, ?_, l3.trans ih3, ih4⟩
              · intro nm hnm v hv' b' hb'
                rcases List.mem_cons.mp hnm with heq | htail
                · subst heq
                  rw [hval] at hv'
                  cases Option.some.inj hv'
                  have hbin : Value.vref b' ∈ items := (valSuccs_vlist_mem items b').mp hb'
                  exact idProcessedAt_mono _ _ _ _ (l1 b' hbin) ih3.procMono
                · exact ih1 nm htail v hv' b' hb'
              · intro c n s' hc hid hmem hnot b'' hb''
                by_cases hs2 : s' ∈ (processListA (process_object SpeckleId target_key
                    target_value max_depth f (depth + 1)) items st_i).1.processed
                · exact idProcessedAt_mono _ _ _ _
                    (l2 c n s' hc hid hs2 hnot b'' hb'') ih3.procMono
                · exact ih2 c n s' hc hid hmem hs2 b'' hb''
            | vnull =>
              obtain ⟨ih1, ih2, ih3, ih4⟩ := ihm st_i acc hInv_i hπ_i hnode_i
              simp only [processMembersA, hnode_i, hv]
              refine ⟨?_, ih2, ih3, ih4⟩
              intro nm hnm v hv' b hb
              rcases List.mem_cons.mp hnm with heq | htail
              · subst heq
                rw [hval] at hv'
                cases Option.some.inj hv'
                rw [show valSuccs Value.vnull = [] from rfl] at hb
                exact absurd hb (List.not_mem_nil _)
              · exact ih1 nm htail v hv' b hb
            | vstr sv =>
              obtain ⟨ih1, ih2, ih3, ih4⟩ := ihm st_i acc hInv_i hπ_i hnode_i
              simp only [processMembersA, hnode_i, hv]
              refine ⟨?_, ih2, ih3, ih4⟩
              intro nm hnm v hv' b hb
              rcases List.mem_cons.mp hnm with heq | htail
              · subst heq
                rw [hval] at hv'
                cases Option.some.inj hv'
                rw [show valSuccs (Value.vstr sv) = [] from rfl] at hb
                exact absurd hb (List.not_mem_nil _)
              · exact ih1 nm htail v hv' b hb
            | vraise =>
              obtain ⟨ih1, ih2, ih3, ih4⟩ := ihm st_i acc hInv_i hπ_i hnode_i
              simp only [processMembersA, hnode_i, hv]
              refine ⟨?_, ih2, ih3, ih4⟩
              intro nm hnm v hv' b hb
              rcases List.mem_cons.mp hnm with heq | htail
              · subst heq
                rw [hval] at hv'
                cases Option.some.inj hv'
                rw [show valSuccs Value.vraise = [] from rfl] at hb
                exact absurd hb (List.not_mem_nil _)
              · exact ih1 nm htail v hv' b hb
      obtain ⟨L1, L2, L3, L4⟩ := loopM (na.fields.map Prod.fst)
        (selfStep SpeckleId target_key target_value a na st).1
        (selfStep SpeckleId target_key target_value a na st).2
        hq_inv0 hπ'_proc hnode3
      constructor
      · intro _
        exact ⟨na, s, hna, hsid,
          L3.procMono s (by rw [hq_proc]; exact List.mem_cons_self _ _)⟩
      · intro c n s' hc hid hmem hnot b hb
        by_cases hs' : s' = s
        · subst hs'
          have hca : c = a := HWF.idsInj c a n na s' hc hna hid hsid
          subst hca
          have hnna : n = na := by
            rw [hc] at hna
            exact Option.some.inj hna
          subst hnna
          obtain ⟨fname, v, hfv, hbv⟩ := succsOfNode_decomp n b hb
          rcases hsfieldk fname v hfv with hnosucc | hgf
          · exact (hnosucc b hbv).elim
          · exact L1 fname (List.mem_map.mpr ⟨(fname, v), hfv, rfl⟩) v hgf b hbv
        · have hnot3 : s' ∉ (selfStep SpeckleId target_key target_value
              a na st).1.processed := by
            rw [hq_proc]
            intro hmem3
            rcases List.mem_cons.mp hmem3 with heq | htail
            · exact hs' heq
            · exact hnot htail
          exact L2 c n s' hc hid hmem hnot3 b hb

theorem mem_succs_of_edge (h : Heap) (a : Addr) (n : NodeRec) (b : Addr)
    (hn : lookupAddr h a = some n) (he : edgeTo h a b) : b ∈ succsOfNode n := by
  obtain ⟨n', hn', hb⟩ := he
  rw [hn] at hn'
  rw [← Option.some.inj hn'] at hb
  exact hb

theorem cexHeapWrapper_depth_bound :
    ∀ l, rootedPath cexHeapWrapper 0 l → l.Nodup → l.length ≤ 3 + 1 := by
  have hedge0 : ∀ b, edgeTo cexHeapWrapper 0 b → b = 1 := by
    intro b he
    have hb := mem_succs_of_edge cexHeapWrapper 0
      ⟨some "R", [("a", Value.vref 1)]⟩ b rfl he
    rw [show succsOfNode (⟨some "R", [("a", Value.vref 1)]⟩ : NodeRec)
        = [1] from rfl] at hb
    exact List.mem_singleton.mp hb
  have hedge1 : ∀ b, edgeTo cexHeapWrapper 1 b → b = 1 ∨ b = 2 := by
    intro b he
    have hb := mem_succs_of_edge cexHeapWrapper 1
      ⟨none, [("self", Value.vref 1), ("x", Value.vref 2)]⟩ b rfl he
    rw [show succsOfNode (⟨none, [("self", Value.vref 1), ("x", Value.vref 2)]⟩
        : NodeRec) = [1, 2] from rfl] at hb
    rcases List.mem_cons.mp hb with h1 | h2
    · exact Or.inl h1
    · exact Or.inr (List.mem_singleton.mp h2)
  have hedge2 : ∀ b, edgeTo cexHeapWrapper 2 b → b = 3 := by
    intro b he
    have hb := mem_succs_of_edge cexHeapWrapper 2
      ⟨some "x", [("c", Value.vref 3)]⟩ b rfl he
    rw [show succsOfNode (⟨some "x", [("c", Value.vref 3)]⟩ : NodeRec)
        = [3] from rfl] at hb
    exact List.mem_singleton.mp hb
  have hedge3 : ∀ b, edgeTo cexHeapWrapper 3 b → False := by
    intro b he
    have hb := mem_succs_of_edge cexHeapWrapper 3 ⟨some "c", []⟩ b rfl he
    rw [show succsOfNode (⟨some "c", []⟩ : NodeRec) = [] from rfl] at hb
    exact List.not_mem_nil b hb
  intro l hp hnd
  obtain ⟨hh, hch⟩ := hp
  cases l with
  | nil => cases hh
  | cons x t =>
    have hx : x = 0 := Option.some.inj hh
    subst hx
    cases t with
    | nil => simp
    | cons b t' =>
      obtain ⟨he0, hch1⟩ := List.chain'_cons.mp hch
      have hb1 : b = 1 := hedge0 b he0
      subst hb1
      cases t' with
      | nil => simp
      | cons c t'' =>
        obtain ⟨he1, hch2⟩ := List.chain'_cons.mp hch1
        rcases hedge1 c he1 with hc1 | hc2
        · subst hc1
          exfalso
          rw [List.nodup_cons] at hnd
          rw [List.nodup_cons] at hnd
          exact hnd.2.1 (List.mem_cons_self _ _)
        · subst hc2
          cases t'' with
          | nil => simp
          | cons d t''' =>
            obtain ⟨he2, hch3⟩ := List.chain'_cons.mp hch2
            have hd3 : d = 3 := hedge2 d he2
            subst hd3
            cases t''' with
            | nil => simp
            | cons e t4 =>
              obtain ⟨he3, _⟩ := List.chain'_cons.mp hch3
              exact absurd (hedge3 e he3) (fun hf => hf)

theorem cexHeapTargetRef_depth_bound :
    ∀ l, rootedPath cexHeapTargetRef 0 l → l.Nodup → l.length ≤ 10 + 1 := by
  have hedge0 : ∀ b, edgeTo cexHeapTargetRef 0 b → b = 1 := by
    intro b he
    have hb := mem_succs_of_edge cexHeapTargetRef 0
      ⟨some "R", [("w", Value.vref 1)]⟩ b rfl he
    rw [show succsOfNode (⟨some "R", [("w", Value.vref 1)]⟩ : NodeRec)
        = [1] from rfl] at hb
    exact List.mem_singleton.mp hb
  have hedge1 : ∀ b, edgeTo cexHeapTargetRef 1 b → False := by
    intro b he
    have hb := mem_succs_of_edge cexHeapTargetRef 1 ⟨some "q", []⟩ b rfl he
    rw [show succsOfNode (⟨some "q", []⟩ : NodeRec) = [] from rfl] at hb
    exact List.not_mem_nil b hb
  intro l hp _
  obtain ⟨hh, hch⟩ := hp
  cases l with
  | nil => cases hh
  | cons x t =>
    have hx : x = 0 := Option.some.inj hh
    subst hx
    cases t with
    | nil => simp
    | cons b t' =>
      obtain ⟨he0, hch1⟩ := List.chain'_cons.mp hch
      have hb1 : b = 1 := hedge0 b he0
      subst hb1
      cases t' with
      | nil => simp
      | cons c t'' =>
        obtain ⟨he1, _⟩ := List.chain'_cons.mp hch1
        exact absurd (hedge1 c he1) (fun hf => hf)

/-! Claim theorems. -/

/-- Claim C1, counterexample.  In the diamond graph, the id-less node at
address 1 is reached with the target field "w" present, yet after the
walk its id (the absent id, recorded as none) appears twice in
mutated_ids, not exactly once: the claim's "exactly once" fails. -/
theorem claim_C1_counterexample :
    hasattrKey (⟨none, [("w", Value.vstr "5")]⟩ : NodeRec) "w" = true ∧
    lookupAddr cexHeapDiamond 1 = some ⟨none, [("w", Value.vstr "5")]⟩ ∧
    (walk "the_specl" "w" (Value.vstr "200") 10 (Value.vref 0) cexHeapDiamond).1.changed_ids
      = [none, none] ∧
    ¬ ((walk "the_specl" "w" (Value.vstr "200") 10
        (Value.vref 0) cexHeapDiamond).1.changed_ids.count none = 1) := by
  refine ⟨rfl, rfl, rfl, ?_⟩
  decide

/-- Claim C1 (amended): for every node with a nonempty id, unambiguous
across the heap, that the walk visits and whose target field is present
(membership test succeeds), after the traversal the field's value
equals the replacement value and the node's id appears in mutated_ids
exactly once.  (Id-less nodes are rewritten on every arrival and add
one none entry each time, so for them "exactly once" fails.) -/
theorem claim_C1 (SpeckleId target_key : String) (target_value : Value)
    (max_depth : Nat) (root : Value) (h : Heap) (a : Addr) (n : NodeRec) (s : String)
    (hinj : ∀ a' a'' n' n'' s', lookupAddr h a' = some n' → lookupAddr h a'' = some n'' →
      n'.id = some s' → n''.id = some s' → a' = a'')
    (hn : lookupAddr h a = some n) (hid : n.id = some s) (hse : s.isEmpty = false)
    (hk : hasattrKey n target_key = true)
    (hvis : s ∈ (walk SpeckleId target_key target_value max_depth root h).1.processed) :
    (walk SpeckleId target_key target_value max_depth root h).1.changed_ids.count
        (some s) = 1 ∧
    lookupAddr (walk SpeckleId target_key target_value max_depth root h).1.heap a =
      some (setField n target_key target_value) ∧
    getFieldList (setField n target_key target_value).fields target_key =
      some target_value := by
  rw [walk_def] at hvis ⊢
  have hI := invar_process_object SpeckleId target_key target_value max_depth
    (max_depth + 1) 0 root ⟨h, [], [], []⟩
  obtain ⟨a', n', hn', hid', hch, hsm, hheap⟩ :=
    hI.newProc s hse hvis (List.not_mem_nil s)
  have haa : a' = a := hinj a' a n' n s hn' hn hid' hid
  subst haa
  have hnn : n' = n := by
    rw [hn'] at hn
    exact Option.some.inj hn
  subst hnn
  refine ⟨?_, hheap hk, getFieldList_setFieldList_self _ _ _⟩
  rw [hch, hk]
  simp

/-- Claim C1 witness: a one-node graph with the target field; the walk
mutates it and records its id exactly once. -/
theorem claim_C1_witness :
    lookupAddr exHeapSingle 0 = some ⟨some "r", [("w", Value.vstr "5")]⟩ ∧
    hasattrKey (⟨some "r", [("w", Value.vstr "5")]⟩ : NodeRec) "w" = true ∧
    "r" ∈ (walk "t" "w" (Value.vstr "200") 10 (Value.vref 0) exHeapSingle).1.processed ∧
    (walk "t" "w" (Value.vstr "200") 10 (Value.vref 0)
      exHeapSingle).1.changed_ids.count (some "r") = 1 := by
  have hinj : ∀ a' a'' n' n'' s', lookupAddr exHeapSingle a' = some n' →
      lookupAddr exHeapSingle a'' = some n'' →
      n'.id = some s' → n''.id = some s' → a' = a'' := by
    intro a' a'' n' n'' s' h1 h2 _ _
    rw [(lookupAddr_single_eq 0 _ a' n' h1).1, (lookupAddr_single_eq 0 _ a'' n'' h2).1]
  have hvis : "r" ∈ (walk "t" "w" (Value.vstr "200") 10
      (Value.vref 0) exHeapSingle).1.processed := by decide
  refine ⟨rfl, rfl, hvis, ?_⟩
  exact (claim_C1 "t" "w" (Value.vstr "200") 10 (Value.vref 0) exHeapSingle 0
    ⟨some "r", [("w", Value.vstr "5")]⟩ "r" hinj rfl rfl rfl rfl hvis).1

/-- Claim C2, counterexample.  The claim as stated fails on graphs the
spec allows.  First scenario: a mixed graph with an id-less
self-looping wrapper between the root and the id-carrying nodes x and
c, with max_depth = 3 and every duplicate-free rooted path within the
budget (at most 4 vertices).  The id-less wrapper is never
deduplicated, so its self member is re-expanded and burns the depth
budget: x is first visited at exactly max_depth, its child c is
depth-pruned there, and every later shallower arrival at x hits the
visited-set guard — so the reachable, stable-id node c is never
visited, and the walk ends with visited set exactly x and the root.
Second scenario: when the target field itself holds the only reference
to a child, the pre-order rewrite severs that edge before the member
loop runs, and the stable-id child q is never visited either. -/
theorem claim_C2_counterexample :
    (lookupAddr cexHeapWrapper 3 = some ⟨some "c", []⟩ ∧
      reachesFrom cexHeapWrapper 0 3 ∧
      (∀ l, rootedPath cexHeapWrapper 0 l → l.Nodup → l.length ≤ 3 + 1) ∧
      (walk "the_specl" "w" (Value.vstr "200") 3 (Value.vref 0)
        cexHeapWrapper).1.processed = ["x", "R"] ∧
      "c" ∉ (walk "the_specl" "w" (Value.vstr "200") 3 (Value.vref 0)
        cexHeapWrapper).1.processed) ∧
    (lookupAddr cexHeapTargetRef 1 = some ⟨some "q", []⟩ ∧
      reachesFrom cexHeapTargetRef 0 1 ∧
      (∀ l, rootedPath cexHeapTargetRef 0 l → l.Nodup → l.length ≤ 10 + 1) ∧
      "q" ∉ (walk "the_specl" "w" (Value.vstr "200") 10 (Value.vref 0)
        cexHeapTargetRef).1.processed) := by
  refine ⟨⟨rfl, ?_, cexHeapWrapper_depth_bound, rfl, by decide⟩,
    rfl, ?_, cexHeapTargetRef_depth_bound, by decide⟩
  · have e01 : edgeTo cexHeapWrapper 0 1 :=
      ⟨⟨some "R", [("a", Value.vref 1)]⟩, rfl, by decide⟩
    have e12 : edgeTo cexHeapWrapper 1 2 :=
      ⟨⟨none, [("self", Value.vref 1), ("x", Value.vref 2)]⟩, rfl, by decide⟩
    have e23 : edgeTo cexHeapWrapper 2 3 :=
      ⟨⟨some "x", [("c", Value.vref 3)]⟩, rfl, by decide⟩
    exact Relation.ReflTransGen.tail
      (Relation.ReflTransGen.tail
        (Relation.ReflTransGen.tail Relation.ReflTransGen.refl e01) e12) e23
  · have e01 : edgeTo cexHeapTargetRef 0 1 :=
      ⟨⟨some "R", [("w", Value.vref 1)]⟩, rfl, by decide⟩
    exact Relation.ReflTransGen.tail Relation.ReflTransGen.refl e01

/-- Claim C2 (amended): restricted to graphs whose nodes all carry
nonempty ids — the counterexample shows an id-less wrapper can leave a
stable-id node unvisited — and whose target field holds no references
— the counterexample shows the pre-order rewrite can sever the only
path to a node; with the spec's data-model invariants (ids name nodes
unambiguously, references resolve, member names duplicate-free) and
duplicate-free rooted paths within the depth budget, every node
reachable from the root — including nodes reached by several paths or
lying on cycles — is visited exactly once per top-level walk: its id
is in the final visited set and is recorded exactly once in the
per-visit ledger (zero times only for the token id).  Moreover the walk
stops without change at any node whose id is already in the visited
set, and the id is added to the visited set before descending into the
children (the member loop runs on a state whose visited set already
holds the id). -/
theorem claim_C2 (SpeckleId target_key : String) (target_value : Value)
    (max_depth : Nat) (h0 : Heap) (r0 : Addr) (n0 : NodeRec)
    (HWF : heapWF target_key h0)
    (Htv : notRefList target_value = true)
    (hr0 : lookupAddr h0 r0 = some n0)
    (Hdepth : ∀ l, rootedPath h0 r0 l → l.Nodup → l.length ≤ max_depth + 1) :
    (∀ b, reachesFrom h0 r0 b →
      ∃ nb sb, lookupAddr h0 b = some nb ∧ nb.id = some sb ∧
        sb ∈ (walk SpeckleId target_key target_value max_depth
          (Value.vref r0) h0).1.processed ∧
        (walk SpeckleId target_key target_value max_depth
          (Value.vref r0) h0).1.same_ids.count (some sb)
          = (if sb = SpeckleId then 0 else 1)) ∧
    (∀ fuel depth a node st, lookupAddr st.heap a = some node →
      idInProcessed node.id st.processed = true →
      process_object SpeckleId target_key target_value max_depth fuel depth
        (Value.vref a) st = (st, false)) ∧
    (∀ f depth a node st s, ¬ max_depth < depth → lookupAddr st.heap a = some node →
      idInProcessed node.id st.processed = false → node.id = some s →
      s.isEmpty = false →
      process_object SpeckleId target_key target_value max_depth (f + 1) depth
          (Value.vref a) st =
        processMembersA (process_object SpeckleId target_key target_value max_depth f
          (depth + 1)) a (node.fields.map Prod.fst)
          (selfStep SpeckleId target_key target_value a node st).1
          (selfStep SpeckleId target_key target_value a node st).2 ∧
      (selfStep SpeckleId target_key target_value a node st).1.processed
        = s :: st.processed) := by
  refine ⟨?_, ?_, ?_⟩
  · have hI : Invar SpeckleId target_key target_value ⟨h0, [], [], []⟩
        (walk SpeckleId target_key target_value max_depth (Value.vref r0) h0).1 :=
      invar_process_object SpeckleId target_key target_value max_depth
        (max_depth + 1) 0 (Value.vref r0) ⟨h0, [], [], []⟩
    have hca := completeAux SpeckleId target_key target_value max_depth h0 r0
      HWF Htv Hdepth (max_depth + 1) 0 ⟨h0, [], [], []⟩ r0 n0 []
      (by omega) (Invar.selfRel _ _ _ _) hr0
      ⟨rfl, List.chain'_singleton r0⟩ rfl List.nodup_nil
      (fun b hb => absurd hb (List.not_mem_nil _))
    have hroot : idProcessedAt h0
        (walk SpeckleId target_key target_value max_depth (Value.vref r0) h0).1 r0 :=
      hca.1 (by omega)
    have hclose : ∀ c, idProcessedAt h0
        (walk SpeckleId target_key target_value max_depth (Value.vref r0) h0).1 c →
        ∀ b, edgeTo h0 c b → idProcessedAt h0
          (walk SpeckleId target_key target_value max_depth (Value.vref r0) h0).1 b := by
      intro c hcP b hedge
      obtain ⟨nc, sc, hnc, hncid, hscm⟩ := hcP
      obtain ⟨nc', hnc', hbs⟩ := hedge
      have hcc : nc' = nc := by
        rw [hnc] at hnc'
        exact (Option.some.inj hnc').symm
      subst hcc
      exact hca.2 c nc' sc hnc hncid hscm (List.not_mem_nil sc) b hbs
    have hconc : ∀ b, idProcessedAt h0
        (walk SpeckleId target_key target_value max_depth (Value.vref r0) h0).1 b →
        ∃ nb sb, lookupAddr h0 b = some nb ∧ nb.id = some sb ∧
          sb ∈ (walk SpeckleId target_key target_value max_depth
            (Value.vref r0) h0).1.processed ∧
          (walk SpeckleId target_key target_value max_depth
            (Value.vref r0) h0).1.same_ids.count (some sb)
            = (if sb = SpeckleId then 0 else 1) := by
      intro b hbP
      obtain ⟨nb, sb, hnb, hid, hmem⟩ := hbP
      refine ⟨nb, sb, hnb, hid, hmem, ?_⟩
      obtain ⟨s', hs', hse'⟩ := HWF.idsTruthy b nb hnb
      rw [hid] at hs'
      cases Option.some.inj hs'
      obtain ⟨a', n', _, _, _, hsm, _⟩ := hI.newProc sb hse' hmem (List.not_mem_nil _)
      rw [hsm]
      simp
    intro b hreach
    induction hreach with
    | refl => exact hconc r0 hroot
    | tail hr he ihr =>
      obtain ⟨nc, sc, hnc, hcid, hcmem, _⟩ := ihr
      exact hconc _ (hclose _ ⟨nc, sc, hnc, hcid, hcmem⟩ _ he)
  · intro fuel depth a node st hl hg
    exact process_object_visited _ _ _ _ _ _ _ _ _ hl hg
  · intro f depth a node st s hd hl hg hid hse
    refine ⟨process_object_step _ _ _ _ _ _ _ _ _ hd hl hg, ?_⟩
    rw [selfStep_desc]
    dsimp only
    rw [hid]
    simp [truthyId_some, hse]

/-- Claim C2 witness: the one-node graph satisfies the wellformedness
and depth hypotheses, and its root is visited and recorded once. -/
theorem claim_C2_witness :
    ∃ nb sb, lookupAddr exHeapPlain 0 = some nb ∧ nb.id = some sb ∧
      sb ∈ (walk "t" "w" (Value.vstr "200") 10 (Value.vref 0)
        exHeapPlain).1.processed ∧
      (walk "t" "w" (Value.vstr "200") 10 (Value.vref 0)
        exHeapPlain).1.same_ids.count (some sb) = (if sb = "t" then 0 else 1) := by
  have HWF : heapWF "w" exHeapPlain := by
    constructor
    · intro a n hn
      obtain ⟨-, hn2⟩ := lookupAddr_single_eq 0 _ a n hn
      subst hn2
      exact ⟨"r", rfl, rfl⟩
    · intro a a' n n' s' h1 h2 _ _
      rw [(lookupAddr_single_eq 0 _ a n h1).1, (lookupAddr_single_eq 0 _ a' n' h2).1]
    · intro a n hn b hb
      obtain ⟨-, hn2⟩ := lookupAddr_single_eq 0 _ a n hn
      subst hn2
      exact absurd hb (List.not_mem_nil _)
    · intro a n hn v hv
      obtain ⟨-, hn2⟩ := lookupAddr_single_eq 0 _ a n hn
      subst hn2
      cases hv
    · intro a n hn
      obtain ⟨-, hn2⟩ := lookupAddr_single_eq 0 _ a n hn
      subst hn2
      exact List.nodup_nil
  have Hdepth : ∀ l, rootedPath exHeapPlain 0 l → l.Nodup → l.length ≤ 10 + 1 := by
    intro l hp _
    obtain ⟨hh, hc⟩ := hp
    cases l with
    | nil => simp
    | cons x t =>
      cases t with
      | nil => simp
      | cons y t' =>
        exfalso
        have hedge : edgeTo exHeapPlain x y := (List.chain'_cons.mp hc).1
        obtain ⟨n, hn, hmem⟩ := hedge
        obtain ⟨-, hn2⟩ := lookupAddr_single_eq 0 _ x n hn
        subst hn2
        exact absurd hmem (List.not_mem_nil _)
  exact (claim_C2 "t" "w" (Value.vstr "200") 10 exHeapPlain 0 ⟨some "r", []⟩
    HWF rfl rfl Hdepth).1 0 Relation.ReflTransGen.refl

/-- Claim C3: (1) a call past the depth ceiling returns no change and an
untouched state, so a node at depth max_depth + 1 is never visited or
mutated; (2) a not-yet-visited node processed at depth exactly
max_depth is visited (its id enters the visited set) and, when the
target field is present, mutated; (3) with max_depth = 0 a root
carrying the target field is still mutated but its children are never
visited: the visited set ends as exactly the root id, the ledger as
exactly its entry, and every other address is untouched. -/
theorem claim_C3 (SpeckleId target_key : String) (target_value : Value)
    (max_depth : Nat) :
    (∀ fuel depth v st, max_depth < depth →
      process_object SpeckleId target_key target_value max_depth fuel depth v st
        = (st, false)) ∧
    (∀ f a node st s, lookupAddr st.heap a = some node →
      idInProcessed node.id st.processed = false → node.id = some s →
      s.isEmpty = false →
      s ∈ (process_object SpeckleId target_key target_value max_depth (f + 1)
          max_depth (Value.vref a) st).1.processed ∧
      (hasattrKey node target_key = true →
        lookupAddr (process_object SpeckleId target_key target_value max_depth (f + 1)
            max_depth (Value.vref a) st).1.heap a =
          some (setField node target_key target_value))) ∧
    (∀ a node s (h : Heap), lookupAddr h a = some node → node.id = some s →
      s.isEmpty = false → hasattrKey node target_key = true →
      (walk SpeckleId target_key target_value 0 (Value.vref a) h).1.processed = [s] ∧
      (walk SpeckleId target_key target_value 0 (Value.vref a) h).1.changed_ids
        = [some s] ∧
      lookupAddr (walk SpeckleId target_key target_value 0 (Value.vref a) h).1.heap a
        = some (setField node target_key target_value) ∧
      (∀ b, b ≠ a →
        lookupAddr (walk SpeckleId target_key target_value 0 (Value.vref a) h).1.heap b
          = lookupAddr h b)) := by
  refine ⟨?_, ?_, ?_⟩
  · intro fuel depth v st hd
    exact process_object_cutoff _ _ _ _ _ _ _ _ hd
  · intro f a node st s hl hg hid hse
    have hd : ¬ max_depth < max_depth := lt_irrefl _
    rw [process_object_step SpeckleId target_key target_value max_depth f max_depth
      a node st hd hl hg]
    have hIm := invar_processMembersA SpeckleId target_key target_value
      (process_object SpeckleId target_key target_value max_depth f (max_depth + 1)) a
      (fun v st => invar_process_object SpeckleId target_key target_value max_depth
        f (max_depth + 1) v st)
      (node.fields.map Prod.fst)
      (selfStep SpeckleId target_key target_value a node st).1
      (selfStep SpeckleId target_key target_value a node st).2
    constructor
    · apply hIm.procMono
      rw [selfStep_desc]
      simp only [hid, Option.getD_some]
      simp [truthyId_some, hse]
    · intro hk
      have hmid : lookupAddr (selfStep SpeckleId target_key target_value
          a node st).1.heap a = some (setField node target_key target_value) := by
        rw [selfStep_heap SpeckleId target_key target_value a node st hl, if_pos hk]
      rcases hIm.frame a with heq | ⟨m, hm, hkm, hsetm, _⟩
      · rw [heq, hmid]
      · rw [hmid] at hm
        have hmn : m = setField node target_key target_value :=
          (Option.some.inj hm).symm
        rw [hsetm, hmn, setField_idem]
  · intro a node s h hl hid hse hk
    have hd : ¬ (0 : Nat) < 0 := lt_irrefl _
    have hg : idInProcessed node.id ([] : List String) = false := by
      rw [hid]
      simp [idInProcessed]
    have hstep := process_object_step SpeckleId target_key target_value 0 0 0
      a node ⟨h, [], [], []⟩ hd hl hg
    have hinert : ∀ (v : Value) (st : St),
        process_object SpeckleId target_key target_value 0 0 1 v st = (st, false) :=
      fun v st => rfl
    rw [walk_def]
    rw [hstep, processMembersA_inert _ _ hinert]
    rw [selfStep_desc]
    have ht : truthyId node.id = true := by
      rw [hid, truthyId_some, hse]
      rfl
    have hne : node.id ≠ some SpeckleId ∨ node.id = some SpeckleId := by
      by_cases hx : node.id = some SpeckleId
      · exact Or.inr hx
      · exact Or.inl hx
    refine ⟨?_, ?_, ?_, ?_⟩
    · simp [hid, truthyId_some, hse]
    · simp only [if_pos hk, hid, List.nil_append]
    · simp only [if_pos hk]
      exact lookupAddr_updateAddr_self _ _ _ _ hl
    · intro b hb
      simp only [if_pos hk]
      exact lookupAddr_updateAddr_ne _ _ _ _ hb

/-- Claim C3 witness: concrete instances of all three parts. -/
theorem claim_C3_witness :
    process_object "t" "w" (Value.vstr "200") 10 3 11 Value.vnull
        ⟨exHeapPlain, [], [], []⟩ = (⟨exHeapPlain, [], [], []⟩, false) ∧
    "r" ∈ (process_object "t" "w" (Value.vstr "200") 10 1 10 (Value.vref 0)
        ⟨exHeapSingle, [], [], []⟩).1.processed ∧
    (walk "t" "w" (Value.vstr "200") 0 (Value.vref 0) exHeapSingle).1.processed
      = ["r"] := by
  refine ⟨?_, ?_, ?_⟩
  · exact (claim_C3 "t" "w" (Value.vstr "200") 10).1 3 11 Value.vnull _ (by decide)
  · exact ((claim_C3 "t" "w" (Value.vstr "200") 10).2.1 0 0
      ⟨some "r", [("w", Value.vstr "5")]⟩ ⟨exHeapSingle, [], [], []⟩ "r"
      rfl rfl rfl rfl).1
  · exact ((claim_C3 "t" "w" (Value.vstr "200") 0).2.2 0
      ⟨some "r", [("w", Value.vstr "5")]⟩ "r" exHeapSingle rfl rfl rfl rfl).1

/-- Claim C4: a self-referential node (one of its members is the node
itself).  The walk from it is a total function (the embedding is
structurally recursive on the depth budget, so it terminates), the
node's id is recorded in mutated_ids at most once, and any re-entry
into the node once its id is in the visited set returns immediately
with no change, which is what cuts the cycle. -/
theorem claim_C4 (SpeckleId target_key : String) (target_value : Value)
    (max_depth : Nat) (h : Heap) (a : Addr) (node : NodeRec) (s : String)
    (hn : lookupAddr h a = some node) (hid : node.id = some s)
    (hse : s.isEmpty = false) (hself : a ∈ succsOfNode node) :
    (walk SpeckleId target_key target_value max_depth (Value.vref a) h).1.changed_ids.count
        (some s) ≤ 1 ∧
    (∀ fuel depth st' node', lookupAddr st'.heap a = some node' → node'.id = some s →
      s ∈ st'.processed →
      process_object SpeckleId target_key target_value max_depth fuel depth
        (Value.vref a) st' = (st', false)) := by
  constructor
  · rw [walk_def]
    have hI := invar_process_object SpeckleId target_key target_value max_depth
      (max_depth + 1) 0 (Value.vref a) ⟨h, [], [], []⟩
    have hb := (hI.chCount s hse).1
    simpa using hb
  · intro fuel depth st' node' hl' hid' hmem
    apply process_object_visited SpeckleId target_key target_value max_depth fuel depth
      a node' st' hl'
    rw [hid']
    exact idInProcessed_true s _ hse hmem

/-- Claim C4 witness: the self-loop graph; its id is recorded at most
once and re-entry with the id visited is a no-op. -/
theorem claim_C4_witness :
    lookupAddr exHeapSelfLoop 0
      = some ⟨some "r", [("me", Value.vref 0), ("w", Value.vstr "5")]⟩ ∧
    0 ∈ succsOfNode (⟨some "r", [("me", Value.vref 0), ("w", Value.vstr "5")]⟩ : NodeRec) ∧
    (walk "t" "w" (Value.vstr "200") 10 (Value.vref 0)
      exHeapSelfLoop).1.changed_ids.count (some "r") ≤ 1 ∧
    process_object "t" "w" (Value.vstr "200") 10 5 1 (Value.vref 0)
        ⟨exHeapSelfLoop, ["r"], [], []⟩ = (⟨exHeapSelfLoop, ["r"], [], []⟩, false) := by
  have hc := claim_C4 "t" "w" (Value.vstr "200") 10 exHeapSelfLoop 0
    ⟨some "r", [("me", Value.vref 0), ("w", Value.vstr "5")]⟩ "r" rfl rfl rfl (by decide)
  exact ⟨rfl, by decide, hc.1,
    hc.2 5 1 ⟨exHeapSelfLoop, ["r"], [], []⟩
      ⟨some "r", [("me", Value.vref 0), ("w", Value.vstr "5")]⟩ rfl rfl
      (List.mem_cons_self _ _)⟩

/-- Claim C5: an error raised while fetching one member is caught
inside the member loop and traversal continues with the next member,
the state and change flag unaffected by the bad member; a node all of
whose members raise still completes its walk normally (returning the
state produced before the loop), and on a concrete graph with a raising
member the walk still rewrites the later field and terminates normally,
so no exception from node inspection escapes the engine, whose
embedding is a total function. -/
theorem claim_C5 (SpeckleId target_key : String) (target_value : Value) :
    (∀ (recO : Value → St → St × Bool) (a : Addr) (name : String)
      (rest : List String) (st : St) (acc : Bool) (node : NodeRec),
      lookupAddr st.heap a = some node → getattrE node name = Except.error () →
      processMembersA recO a (name :: rest) st acc =
        processMembersA recO a rest st acc) ∧
    (∀ (recO : Value → St → St × Bool) (a : Addr) (names : List String)
      (st : St) (acc : Bool) (node : NodeRec),
      lookupAddr st.heap a = some node →
      (∀ name, name ∈ names → getattrE node name = Except.error ()) →
      processMembersA recO a names st acc = (st, acc)) ∧
    ((walk "the_specl" "w" (Value.vstr "200") 10 (Value.vref 0) exHeapRaise).1.heap
      = [(0, ⟨some "r", [("bad", Value.vraise), ("w", Value.vstr "200")]⟩)]) := by
  refine ⟨?_, ?_, ?_⟩
  · intro recO a name rest st acc node hl he
    exact processMembersA_skip_error recO a name rest st acc node hl he
  · intro recO a names
    induction names with
    | nil => intro st acc node hl hall; rfl
    | cons name rest ih =>
      intro st acc node hl hall
      rw [processMembersA_skip_error recO a name rest st acc node hl
        (hall name (List.mem_cons_self _ _))]
      exact ih st acc node hl (fun nm hm => hall nm (List.mem_cons_of_mem _ hm))
  · rfl

/-- Claim C5 witness: concrete instances of the skip and completion
equations on the graph with a raising member. -/
theorem claim_C5_witness :
    getattrE (⟨some "r", [("bad", Value.vraise), ("w", Value.vstr "5")]⟩ : NodeRec) "bad"
      = Except.error () ∧
    processMembersA (fun _ st => (st, false)) 0 ["bad"] ⟨exHeapRaise, [], [], []⟩ false
      = (⟨exHeapRaise, [], [], []⟩, false) := by
  refine ⟨rfl, ?_⟩
  exact (claim_C5 "t" "w" (Value.vstr "200")).2.1 (fun _ st => (st, false)) 0 ["bad"]
    ⟨exHeapRaise, [], [], []⟩ false
    ⟨some "r", [("bad", Value.vraise), ("w", Value.vstr "5")]⟩ rfl
    (by
      intro nm hm
      rw [List.mem_singleton.mp hm]
      rfl)

/-- Claim C6: running the walk a second time on the already-mutated
graph with the same target field and replacement value yields the same
mutated_ids sequence, the same same_ids sequence, the same visited set
and change flag, and the same final graph state (pointwise equal heap):
the rewrite still fires on every structural match, it is not a no-op.
(The replacement value is an ordinary storable value, not the marker
for a raising property.) -/
theorem claim_C6 (SpeckleId target_key : String) (target_value : Value)
    (max_depth : Nat) (root : Value) (h : Heap)
    (htv : target_value ≠ Value.vraise) :
    (walk SpeckleId target_key target_value max_depth root
        (walk SpeckleId target_key target_value max_depth root h).1.heap).1.changed_ids
      = (walk SpeckleId target_key target_value max_depth root h).1.changed_ids ∧
    (walk SpeckleId target_key target_value max_depth root
        (walk SpeckleId target_key target_value max_depth root h).1.heap).1.same_ids
      = (walk SpeckleId target_key target_value max_depth root h).1.same_ids ∧
    (walk SpeckleId target_key target_value max_depth root
        (walk SpeckleId target_key target_value max_depth root h).1.heap).1.processed
      = (walk SpeckleId target_key target_value max_depth root h).1.processed ∧
    (walk SpeckleId target_key target_value max_depth root
        (walk SpeckleId target_key target_value max_depth root h).1.heap).2
      = (walk SpeckleId target_key target_value max_depth root h).2 ∧
    (∀ a, lookupAddr (walk SpeckleId target_key target_value max_depth root
        (walk SpeckleId target_key target_value max_depth root h).1.heap).1.heap a
      = lookupAddr (walk SpeckleId target_key target_value max_depth root h).1.heap a) := by
  have hI : Invar SpeckleId target_key target_value ⟨h, [], [], []⟩
      (walk SpeckleId target_key target_value max_depth root h).1 :=
    invar_process_object SpeckleId target_key target_value max_depth
      (max_depth + 1) 0 root ⟨h, [], [], []⟩
  have hH : heapRel target_key target_value h
      (walk SpeckleId target_key target_value max_depth root h).1.heap := by
    intro a
    rcases hI.frame a with heq | ⟨n, hn, hk, hset, _⟩
    · exact Or.inl heq
    · exact Or.inr ⟨n, hn, hk, hset⟩
  have hsim : stRel target_key target_value
        (walk SpeckleId target_key target_value max_depth root h).1
        (walk SpeckleId target_key target_value max_depth root
          (walk SpeckleId target_key target_value max_depth root h).1.heap).1 ∧
      (walk SpeckleId target_key target_value max_depth root
        (walk SpeckleId target_key target_value max_depth root h).1.heap).2
        = (walk SpeckleId target_key target_value max_depth root h).2 ∧
      (∀ b, lookupAddr (walk SpeckleId target_key target_value max_depth root h).1.heap b
          = lookupAddr h b →
        lookupAddr (walk SpeckleId target_key target_value max_depth root
          (walk SpeckleId target_key target_value max_depth root h).1.heap).1.heap b
          = lookupAddr (walk SpeckleId target_key target_value max_depth root h).1.heap b) :=
    sim_process_object SpeckleId target_key target_value max_depth htv
      (max_depth + 1) 0 root ⟨h, [], [], []⟩
      ⟨(walk SpeckleId target_key target_value max_depth root h).1.heap, [], [], []⟩
      ⟨rfl, rfl, rfl, hH⟩
  obtain ⟨⟨hP2, hC2, hS2, hH2⟩, hfl2, hag2⟩ := hsim
  refine ⟨hC2, hS2, hP2, hfl2, ?_⟩
  intro a
  rcases hI.frame a with heq | ⟨n, hn, hk, hset, _⟩
  · exact hag2 a heq
  · rcases hH2 a with heq2 | ⟨m, hm, hkm, hsm⟩
    · exact heq2
    · rw [hset] at hm
      have hmn : m = setField n target_key target_value := (Option.some.inj hm).symm
      rw [hsm, hmn, setField_idem, ← hset]

/-- Claim C6 witness: rerunning on the mutated one-node graph repeats
the same ledger and final state. -/
theorem claim_C6_witness :
    (Value.vstr "200" ≠ Value.vraise) ∧
    (walk "t" "w" (Value.vstr "200") 10 (Value.vref 0)
        (walk "t" "w" (Value.vstr "200") 10 (Value.vref 0) exHeapSingle).1.heap).1.changed_ids
      = (walk "t" "w" (Value.vstr "200") 10 (Value.vref 0) exHeapSingle).1.changed_ids ∧
    lookupAddr (walk "t" "w" (Value.vstr "200") 10 (Value.vref 0)
        (walk "t" "w" (Value.vstr "200") 10 (Value.vref 0) exHeapSingle).1.heap).1.heap 0
      = lookupAddr (walk "t" "w" (Value.vstr "200") 10 (Value.vref 0)
        exHeapSingle).1.heap 0 := by
  have htv : Value.vstr "200" ≠ Value.vraise := fun hh => Value.noConfusion hh
  have hc := claim_C6 "t" "w" (Value.vstr "200") 10 (Value.vref 0) exHeapSingle htv
  exact ⟨htv, hc.1, hc.2.2.2.2 0⟩

/-- Claim C7: (1) an id equal to the caller-supplied SpeckleId token is
never recorded in same_ids by any call; (2) every node processed past
the guards whose id differs from the token has its id appended to
same_ids at that visit, with no membership-test hypothesis (recording
is independent of mutation); (3) at top level, a visited nonempty id is
recorded in same_ids exactly once when it differs from the token and
never when it equals it. -/
theorem claim_C7 (SpeckleId target_key : String) (target_value : Value)
    (max_depth : Nat) :
    (∀ fuel depth v st,
      (process_object SpeckleId target_key target_value max_depth fuel depth
        v st).1.same_ids.count (some SpeckleId) = st.same_ids.count (some SpeckleId)) ∧
    (∀ f depth a node st, ¬ max_depth < depth → lookupAddr st.heap a = some node →
      idInProcessed node.id st.processed = false → node.id ≠ some SpeckleId →
      ∃ l, (process_object SpeckleId target_key target_value max_depth (f + 1) depth
        (Value.vref a) st).1.same_ids = st.same_ids ++ node.id :: l) ∧
    (∀ root h s, s.isEmpty = false →
      s ∈ (walk SpeckleId target_key target_value max_depth root h).1.processed →
      (walk SpeckleId target_key target_value max_depth root h).1.same_ids.count (some s)
        = if s = SpeckleId then 0 else 1) := by
  refine ⟨?_, ?_, ?_⟩
  · intro fuel depth v st
    exact (invar_process_object SpeckleId target_key target_value max_depth
      fuel depth v st).tokCount
  · intro f depth a node st hd hl hg hne
    rw [process_object_step SpeckleId target_key target_value max_depth f depth
      a node st hd hl hg]
    have hIm := invar_processMembersA SpeckleId target_key target_value
      (process_object SpeckleId target_key target_value max_depth f (depth + 1)) a
      (fun v st => invar_process_object SpeckleId target_key target_value max_depth
        f (depth + 1) v st)
      (node.fields.map Prod.fst)
      (selfStep SpeckleId target_key target_value a node st).1
      (selfStep SpeckleId target_key target_value a node st).2
    obtain ⟨l, hl2⟩ := hIm.smApp
    refine ⟨l, ?_⟩
    rw [hl2, selfStep_desc]
    simp only [if_pos hne]
    rw [List.append_assoc, List.singleton_append]
  · intro root h s hse hvis
    rw [walk_def] at hvis ⊢
    have hI := invar_process_object SpeckleId target_key target_value max_depth
      (max_depth + 1) 0 root ⟨h, [], [], []⟩
    obtain ⟨a', n', hn', hid', hch, hsm, hheap⟩ :=
      hI.newProc s hse hvis (List.not_mem_nil s)
    rw [hsm]
    simp

/-- Claim C7 witness: on the raise graph the root id "r" differs from
the token and is recorded exactly once; the token count stays zero. -/
theorem claim_C7_witness :
    (walk "t" "w" (Value.vstr "200") 10 (Value.vref 0)
        exHeapRaise).1.same_ids.count (some "t") = 0 ∧
    "r" ∈ (walk "t" "w" (Value.vstr "200") 10 (Value.vref 0) exHeapRaise).1.processed ∧
    (walk "t" "w" (Value.vstr "200") 10 (Value.vref 0)
        exHeapRaise).1.same_ids.count (some "r") = (if "r" = "t" then 0 else 1) := by
  have hvis : "r" ∈ (walk "t" "w" (Value.vstr "200") 10 (Value.vref 0)
      exHeapRaise).1.processed := by decide
  refine ⟨?_, hvis, ?_⟩
  · have := (claim_C7 "t" "w" (Value.vstr "200") 10).1 11 0 (Value.vref 0)
      ⟨exHeapRaise, [], [], []⟩
    simpa using this
  · exact (claim_C7 "t" "w" (Value.vstr "200") 10).2.2 (Value.vref 0) exHeapRaise "r"
      rfl hvis

/-- Claim C8: for a node (unambiguously identified) that does not carry
the target field, the walk leaves the node untouched and never lets its
id into mutated_ids; and on any node at all, fields other than the
target field are never rewritten (the final value of every other field
equals its initial value, and ids are preserved). -/
theorem claim_C8 (SpeckleId target_key : String) (target_value : Value)
    (max_depth : Nat) (root : Value) (h : Heap) (a : Addr) (n : NodeRec)
    (hinj : ∀ a' a'' n' n'' s', lookupAddr h a' = some n' → lookupAddr h a'' = some n'' →
      n'.id = some s' → n''.id = some s' → a' = a'')
    (hn : lookupAddr h a = some n)
    (hnok : hasattrKey n target_key = false) :
    lookupAddr (walk SpeckleId target_key target_value max_depth root h).1.heap a
      = some n ∧
    (∀ s, n.id = some s →
      (some s) ∉ (walk SpeckleId target_key target_value max_depth root h).1.changed_ids) ∧
    (∀ a' n' f, lookupAddr h a' = some n' → f ≠ target_key →
      ∃ n'', lookupAddr (walk SpeckleId target_key target_value max_depth root h).1.heap a'
          = some n'' ∧
        getFieldList n''.fields f = getFieldList n'.fields f ∧ n''.id = n'.id) := by
  rw [walk_def]
  have hI := invar_process_object SpeckleId target_key target_value max_depth
    (max_depth + 1) 0 root ⟨h, [], [], []⟩
  refine ⟨?_, ?_, ?_⟩
  · rcases hI.frame a with heq | ⟨m, hm, hkm, hsetm, _⟩
    · rw [heq]
      exact hn
    · exfalso
      rw [hn] at hm
      have hmn : m = n := (Option.some.inj hm.symm)
      rw [hmn, hnok] at hkm
      cases hkm
  · intro s hsid hmem
    rcases hI.chSrc s hmem with hin | ⟨a', n', hn', hid', hk'⟩
    · cases hin
    · have haa : a' = a := hinj a' a n' n s hn' hn hid' hsid
      subst haa
      rw [hn'] at hn
      have : n' = n := Option.some.inj hn
      rw [this, hnok] at hk'
      cases hk'
  · intro a' n' f ha' hf
    rcases hI.frame a' with heq | ⟨m, hm, hkm, hsetm, _⟩
    · refine ⟨n', ?_, rfl, rfl⟩
      rw [heq]
      exact ha'
    · rw [ha'] at hm
      have hmn : m = n' := Option.some.inj hm.symm
      subst hmn
      refine ⟨setField m target_key target_value, hsetm, ?_, rfl⟩
      exact getFieldList_setFieldList_ne _ _ _ _ hf

/-- Claim C8 witness: the plain one-node graph has no target field; the
walk leaves it untouched and records nothing for it. -/
theorem claim_C8_witness :
    hasattrKey (⟨some "r", []⟩ : NodeRec) "w" = false ∧
    lookupAddr (walk "t" "w" (Value.vstr "200") 10 (Value.vref 0)
        exHeapPlain).1.heap 0 = some ⟨some "r", []⟩ ∧
    (some "r") ∉ (walk "t" "w" (Value.vstr "200") 10 (Value.vref 0)
        exHeapPlain).1.changed_ids := by
  have hinj : ∀ a' a'' n' n'' s', lookupAddr exHeapPlain a' = some n' →
      lookupAddr exHeapPlain a'' = some n'' →
      n'.id = some s' → n''.id = some s' → a' = a'' := by
    intro a' a'' n' n'' s' h1 h2 _ _
    rw [(lookupAddr_single_eq 0 _ a' n' h1).1, (lookupAddr_single_eq 0 _ a'' n'' h2).1]
  have hc := claim_C8 "t" "w" (Value.vstr "200") 10 (Value.vref 0) exHeapPlain 0
    ⟨some "r", []⟩ hinj rfl rfl
  exact ⟨rfl, hc.1, hc.2.1 "r" rfl⟩

/-- Claim C9, counterexample.  The field read operation
get_safe_attribute collapses an absent field and a present-but-null
field to the same result, so its absent outcome is not distinguishable
from a present null value, contrary to the claim. -/
theorem claim_C9_counterexample :
    getFieldList exNodeBare.fields "x" = none ∧
    getFieldList exNodeNull.fields "x" = some Value.vnull ∧
    get_safe_attribute exNodeNull "x" = get_safe_attribute exNodeBare "x" :=
  ⟨rfl, rfl, rfl⟩

/-- Claim C9 (amended): get_safe_attribute never raises (the try/except
body always returns normally), but it does not distinguish absent from
present-but-null; the membership test the mutation actually uses
(hasattr, source line 191) does make that distinction: a present null
field tests true and an absent field tests false. -/
theorem claim_C9 :
    (∀ n key, getSafeAttributeE n key = Except.ok (get_safe_attribute n key)) ∧
    (∀ n key, getFieldList n.fields key = some Value.vnull → hasattrKey n key = true) ∧
    (∀ n key, getFieldList n.fields key = none → hasattrKey n key = false) := by
  refine ⟨?_, ?_, ?_⟩
  · intro n key
    unfold getSafeAttributeE get_safe_attribute
    cases getattrE n key <;> rfl
  · intro n key hnull
    unfold hasattrKey
    rw [hnull]
  · intro n key hnone
    unfold hasattrKey
    rw [hnone]

/-- Claim C9 witness: concrete nodes for each part. -/
theorem claim_C9_witness :
    getSafeAttributeE exNodeNull "x" = Except.ok (get_safe_attribute exNodeNull "x") ∧
    (getFieldList exNodeNull.fields "x" = some Value.vnull ∧
      hasattrKey exNodeNull "x" = true) ∧
    (getFieldList exNodeBare.fields "x" = none ∧ hasattrKey exNodeBare "x" = false) :=
  ⟨claim_C9.1 exNodeNull "x", ⟨rfl, claim_C9.2.1 exNodeNull "x" rfl⟩,
    ⟨rfl, claim_C9.2.2 exNodeBare "x" rfl⟩⟩

/-- Claim C10: a node whose id is absent but whose target field is
present is still rewritten, with none (the absent id) appended to
mutated_ids at every such visit; its processing adds nothing to the
visited set, so other arrivals repeat the rewrite; concretely, a graph
reaching an id-less node three times yields three none entries. -/
theorem claim_C10 (SpeckleId target_key : String) (target_value : Value)
    (max_depth : Nat) :
    (∀ f depth a node st, ¬ max_depth < depth → lookupAddr st.heap a = some node →
      node.id = none → hasattrKey node target_key = true →
      ∃ l, (process_object SpeckleId target_key target_value max_depth (f + 1) depth
        (Value.vref a) st).1.changed_ids = st.changed_ids ++ none :: l) ∧
    (∀ a node st, node.id = none →
      (selfStep SpeckleId target_key target_value a node st).1.processed
        = st.processed) ∧
    ((walk "the_specl" "w" (Value.vstr "200") 10 (Value.vref 0) cexHeapTriple).1.changed_ids
      = [none, none, none]) := by
  refine ⟨?_, ?_, ?_⟩
  · intro f depth a node st hd hl hidn hk
    have hg : idInProcessed node.id st.processed = false := by
      rw [hidn]
      rfl
    rw [process_object_step SpeckleId target_key target_value max_depth f depth
      a node st hd hl hg]
    have hIm := invar_processMembersA SpeckleId target_key target_value
      (process_object SpeckleId target_key target_value max_depth f (depth + 1)) a
      (fun v st => invar_process_object SpeckleId target_key target_value max_depth
        f (depth + 1) v st)
      (node.fields.map Prod.fst)
      (selfStep SpeckleId target_key target_value a node st).1
      (selfStep SpeckleId target_key target_value a node st).2
    obtain ⟨l, hl2⟩ := hIm.chApp
    refine ⟨l, ?_⟩
    rw [hl2, selfStep_desc]
    simp only [if_pos hk, hidn]
    rw [List.append_assoc, List.singleton_append]
  · intro a node st hidn
    rw [selfStep_desc]
    have : truthyId node.id = false := by
      rw [hidn]
      rfl
    simp [this]
  · rfl

/-- Claim C10 witness: the id-less node of the diamond graph is
rewritten with a none ledger entry, and its self step leaves the
visited set unchanged. -/
theorem claim_C10_witness :
    lookupAddr cexHeapDiamond 1 = some ⟨none, [("w", Value.vstr "5")]⟩ ∧
    (∃ l, (process_object "t" "w" (Value.vstr "200") 10 1 0 (Value.vref 1)
      ⟨cexHeapDiamond, [], [], []⟩).1.changed_ids = [] ++ none :: l) ∧
    (selfStep "t" "w" (Value.vstr "200") 1 ⟨none, [("w", Value.vstr "5")]⟩
      ⟨cexHeapDiamond, [], [], []⟩).1.processed = [] := by
  refine ⟨rfl, ?_, ?_⟩
  · exact (claim_C10 "t" "w" (Value.vstr "200") 10).1 0 0 1
      ⟨none, [("w", Value.vstr "5")]⟩ ⟨cexHeapDiamond, [], [], []⟩ (by decide) rfl rfl rfl
  · exact (claim_C10 "t" "w" (Value.vstr "200") 10).2.1 1
      ⟨none, [("w", Value.vstr "5")]⟩ ⟨cexHeapDiamond, [], [], []⟩ rfl

end SpeckleWalk
